import Mathlib

/-!
Shallow embedding of the package-index reconciliation engine in
tools/update_packages.py, together with proofs about the claims of the
specification.  Text is modelled as lists of characters; the relevant
Python string operations (strip, splitlines, the field regexes, rsplit)
are translated at the character level.  Unicode whitespace beyond the
ASCII range is not modelled (the program only ever meets ASCII keys and
ASCII control data there).
-/

namespace UpdatePackages

/-- Text is modelled as a list of characters. -/
abbrev Str := List Char

/-- The whitespace characters stripped by the Python str.strip method and
matched by the regex class backslash-s, restricted to the ASCII range. -/
def isPySpace (c : Char) : Bool :=
  c = ' ' || c = '\t' || c = '\n' || c = '\r' || c = '\x0b' || c = '\x0c' ||
  c = '\x1c' || c = '\x1d' || c = '\x1e' || c = '\x1f' || c = '\x85'

/-- Python str.strip: remove leading and trailing whitespace. -/
def strip (l : Str) : Str :=
  (l.dropWhile isPySpace).rdropWhile isPySpace

/-- The characters at which Python str.splitlines breaks a line
(carriage return and line feed each break on their own; a CR LF pair
counts as a single break). -/
def isLB (c : Char) : Bool :=
  c = '\n' || c = '\r' || c = '\x0b' || c = '\x0c' ||
  c = '\x1c' || c = '\x1d' || c = '\x1e' || c = '\x85' ||
  c = '\u2028' || c = '\u2029'

/-- Python str.splitlines, accumulating the current line in reverse.
The Boolean flag records that the previous character was a CR whose
break was already emitted, so that an immediately following LF is
swallowed (CRLF counts as a single break). -/
def splitlinesAux : List Char → List Char → Bool → List Str
  | [], acc, _ => if acc.isEmpty then [] else [acc.reverse]
  | c :: rest, acc, afterCR =>
      if afterCR = true ∧ c = '\n' then splitlinesAux rest acc false
      else if isLB c then acc.reverse :: splitlinesAux rest [] (c == '\r')
      else splitlinesAux rest (c :: acc) false

/-- Python str.splitlines (without keepends). -/
def splitlines (l : Str) : List Str := splitlinesAux l [] false

/-- The line terminator used by the tool: EOL = CR LF
("keep CRLF for compatibility"). -/
def EOL : Str := ['\r', '\n']

/-- Consume the maximal run of line breaks matched by the regex
(backslash-r optional, then backslash-n) at the head of the text,
returning how many breaks were consumed and the remaining text.  A lone
carriage return is not a break for this regex. -/
def consumeBreaks : List Char → Nat × List Char
  | '\r' :: '\n' :: rest => let p := consumeBreaks rest; (p.1 + 1, p.2)
  | '\n' :: rest => let p := consumeBreaks rest; (p.1 + 1, p.2)
  | l => (0, l)

/-- The remainder of consumeBreaks is at least as short as the input
minus the number of breaks consumed (each break spans one or two
characters). -/
def consumeBreaks_bound : ∀ l : List Char,
    (consumeBreaks l).2.length + (consumeBreaks l).1 ≤ l.length := by
  intro l
  induction l using consumeBreaks.induct with
  | case1 rest ih => simp only [consumeBreaks, List.length_cons]; omega
  | case2 rest ih => simp only [consumeBreaks, List.length_cons]; omega
  | case3 l h1 h2 => simp [consumeBreaks.eq_def]

/-- One step of the regex split re.split of the pattern matching two or
more line breaks: scan the text, and whenever a run of at least two
breaks starts, end the current fragment there.  Mirrors how re.split
cuts the text at every non-overlapping (greedy) separator match. -/
def parseAux (l : List Char) (acc : List Char) : List Str :=
  if _h2 : 2 ≤ (consumeBreaks l).1 then
    acc.reverse :: parseAux (consumeBreaks l).2 []
  else
    match l with
    | [] => [acc.reverse]
    | c :: cs => parseAux cs (c :: acc)
termination_by l.length
decreasing_by
  · have := consumeBreaks_bound l
    omega
  · simp

/-- parse_stanzas: split on runs of two or more line breaks and keep the
fragments that are non-blank after stripping. -/
def parse_stanzas (text : Str) : List Str :=
  (parseAux text []).filter (fun p => !(strip p).isEmpty)

/-- Python str.join with a separator: empty for no parts, the sole part
alone, otherwise parts interleaved with the separator. -/
def joinSep (sep : Str) : List Str → Str
  | [] => []
  | [x] => x
  | x :: xs => x ++ sep ++ joinSep sep xs

/-- join_stanzas: strip each stanza, join with one blank CRLF line, and
append one trailing CRLF. -/
def join_stanzas (stanzas : List Str) : Str :=
  (joinSep (EOL ++ EOL) (stanzas.map strip)) ++ EOL

/-- Does the text begin with a line break recognised by the split
regex, i.e. LF or CR LF. -/
def startsBreak : List Char → Bool
  | '\n' :: _ => true
  | '\r' :: '\n' :: _ => true
  | _ => false

/-- No position of the text starts a run of two or more regex line
breaks (so the stanza-separator regex cannot match inside it). -/
def noDoubleBreak : List Char → Bool
  | [] => true
  | l@(_ :: cs) => decide ((consumeBreaks l).1 ≤ 1) && noDoubleBreak cs

/-- Lowercase a string (Python str.lower for the ASCII letters used in
field keys, and the behaviour of re.IGNORECASE on them). -/
def toLowerStr (l : Str) : Str := l.map Char.toLower

/-- Does the line start (case-insensitively) with the given key.  For
the whitespace-free literal keys the program uses, the greedy regex
engine can place the key only right after the maximal run of leading
whitespace, so prefix comparison is exact. -/
def keyAtHead (key l : Str) : Bool :=
  toLowerStr (l.take key.length) == toLowerStr key

/-- Given the text after the colon of a candidate field line, decide
whether the tail regex (any whitespace, then one or more non-newline
characters, then end of line) matches, and if so return the captured
value stripped.  The end-of-line anchor also matches just before one
final newline character. -/
def fieldValueOfRest (rest : Str) : Option Str :=
  if rest.isEmpty then none
  else
    let core := if rest.getLast? = some '\n' then rest.dropLast else rest
    let v := core.dropWhile isPySpace
    if v.isEmpty then
      match core.getLast? with
      | some c => if c = '\n' then none else some []
      | none => none
    else if v.contains '\n' then none else some (strip core)

/-- Match one line against the field regex: start anchor, any
whitespace, the key (case-insensitive), any whitespace, a colon, any
whitespace, then a non-empty captured value up to the end of line.
Returns the stripped captured value on a match. -/
def matchField (key ln : Str) : Option Str :=
  let l1 := ln.dropWhile isPySpace
  if keyAtHead key l1 then
    match (l1.drop key.length).dropWhile isPySpace with
    | ':' :: rest => fieldValueOfRest rest
    | _ => none
  else none

/-- Scan the lines for the first one matching the field regex for the
key, carrying the current index. -/
def getFieldAux (key : Str) : List Str → Nat → Option (Nat × Str)
  | [], _ => none
  | ln :: ls, i =>
      match matchField key ln with
      | some v => some (i, v)
      | none => getFieldAux key ls (i + 1)

/-- get_field: index and stripped value of the first line matching the
key, case-insensitively; a missing key yields no result (the source
returns the pair None, None). -/
def get_field (lines : List Str) (key : Str) : Option (Nat × Str) :=
  getFieldAux key lines 0

/-- set_field: replace the first matching line in place, or append a
new line at the end when the key is not found. -/
def set_field (lines : List Str) (key value : Str) : List Str :=
  let line := key ++ ':' :: ' ' :: value
  match get_field lines key with
  | none => lines ++ [line]
  | some p => lines.set p.1 line

/-- The lowercased, stripped field name of a line, when the line
matches the name regex: any whitespace, one or more non-colon
characters (captured), any whitespace, a colon.  A line whose first
colon comes first, or that has no colon, does not match. -/
def fieldNameOf (ln : Str) : Option Str :=
  let pre := ln.takeWhile (fun c => c ≠ ':')
  if pre.isEmpty || pre.length == ln.length then none
  else some (toLowerStr (strip pre))

/-- remove_fields: drop every line whose field name is in the key set
(case-insensitively), keeping the rest in order. -/
def remove_fields (lines : List Str) (keys : List Str) : List Str :=
  let keys_lc := keys.map toLowerStr
  lines.filter (fun ln =>
    match fieldNameOf ln with
    | some nm => !(keys_lc.contains nm)
    | none => true)

/-- Split a string at the first occurrence of a character, if any. -/
def splitFirst (c : Char) : Str → Option (Str × Str)
  | [] => none
  | d :: rest =>
      if d = c then some ([], rest)
      else (splitFirst c rest).map (fun p => (d :: p.1, p.2))

/-- Python str.rsplit with separator c and maxsplit 2: split from the
right at the last two occurrences of c, yielding one to three parts. -/
def rsplit2 (s : Str) (c : Char) : List Str :=
  match splitFirst c s.reverse with
  | none => [s]
  | some (a, r1) =>
      match splitFirst c r1 with
      | none => [r1.reverse, a.reverse]
      | some (b, r2) => [r2.reverse, b.reverse, a.reverse]

/-- The literal suffix dot-deb. -/
def dotDeb : Str := ".deb".toList

/-- parse_deb_filename: on names ending in dot-deb, split the base name
from the right on underscore into exactly three segments; drop one
leading letter v or V from the version when at least one character
follows; keep only the architecture text before its first dot.  Any
other shape yields none. -/
def parse_deb_filename (name : Str) : Option (Str × Str × Str) :=
  if ¬ dotDeb.isSuffixOf name then none
  else
    match rsplit2 (name.take (name.length - 4)) '_' with
    | [pkg, ver, arch] =>
        let ver' := if (ver.head? = some 'v' ∨ ver.head? = some 'V') ∧ 1 < ver.length
                    then ver.drop 1 else ver
        let arch' := if arch.contains '.' then arch.takeWhile (fun c => c ≠ '.') else arch
        some (pkg, ver', arch')
    | _ => none

/-- Decimal representation of a natural number (the Python f-string
rendering of the size). -/
def natToStr (n : Nat) : Str :=
  if _h : n < 10 then [Char.ofNat (48 + n)]
  else natToStr (n / 10) ++ [Char.ofNat (48 + n % 10)]
termination_by n
decreasing_by
  exact Nat.div_lt_self (by omega) (by omega)

/-- UpdatePlan, as in the source dataclass. -/
structure UpdatePlan where
  stanza_index : Nat
  filename : Str
  size : Nat
  md5 : Str
  sha1 : Str
  sha256 : Str
  fix_pkg : Option Str
  fix_ver : Option Str
  fix_arch : Option Str
  fix_filename : Option Str
  icon_url : Option Str
deriving DecidableEq

/-- The size and hash digests the filesystem reports for one artifact
(the streaming hash computation is abstracted to its results). -/
structure FileInfo where
  size : Nat
  md5 : Str
  sha1 : Str
  sha256 : Str
deriving DecidableEq

/-- The artifact directory: the basenames it contains, in filesystem
enumeration order, and the per-file data. -/
structure DebsDir where
  entries : List Str
  info : Str → FileInfo

/-- Lexicographic comparison of strings by code point, the order Python
sorted uses on the glob results (all candidate paths share the same
directory component, so comparing full paths compares basenames). -/
def strLe : Str → Str → Bool
  | [], _ => true
  | _ :: _, [] => false
  | a :: as, b :: bs =>
      if a.toNat < b.toNat then true
      else if b.toNat < a.toNat then false
      else strLe as bs

/-- Sorting of the glob candidates (Python sorted). -/
def sortStr (l : List Str) : List Str :=
  List.insertionSort (fun a b => strLe a b = true) l

/-- Does a name match the glob pattern stem-star-dot-deb, reading the
stem literally: the name extends the stem and ends in dot-deb beyond
it. -/
def globStemDeb (stem n : Str) : Bool :=
  stem.isPrefixOf n && dotDeb.isSuffixOf n && decide (stem.length + 4 ≤ n.length)

/-- The sorted candidates of the fuzzy search for a stem. -/
def glob_deb_candidates (fs : DebsDir) (stem : Str) : List Str :=
  sortStr (fs.entries.filter (fun n => globStemDeb stem n))

/-- os.path.basename: the part after the last slash. -/
def basename (p : Str) : Str := (p.reverse.takeWhile (fun c => c ≠ '/')).reverse

/-- The literal path fragment dot-slash-debs-slash used for recorded
filename corrections. -/
def debsDirDot : Str := "./debs/".toList

/-- The resolver step of the planner: an exactly matching basename
resolves to itself with no filename correction; otherwise a name ending
in dot-deb is searched fuzzily and the first sorted candidate is taken,
recording a corrected declared path; otherwise resolution fails. -/
def resolveArtifact (fs : DebsDir) (deb_name : Str) : Option (Str × Option Str) :=
  if fs.entries.contains deb_name then some (deb_name, none)
  else if dotDeb.isSuffixOf deb_name then
    match glob_deb_candidates fs (deb_name.take (deb_name.length - 4)) with
    | [] => none
    | c :: _ => some (c, some (debsDirDot ++ c))
  else none

/-- The icon file extensions probed, in their fixed order. -/
def iconExts : List Str := [".png".toList, ".jpg".toList, ".jpeg".toList, ".webp".toList]

/-- Python truthiness of an optional string: present and non-empty. -/
def truthyOpt : Option Str → Bool
  | some (_ :: _) => true
  | _ => false

/-- The literal relative path fragment icons-slash. -/
def iconsRel : Str := "icons/".toList

/-- The icon resolver: given a package id, a directory listing (none
when the directory does not exist) and an optional URL prefix, probe
the extensions in order and build the URL of the first icon file that
exists. -/
def find_icon_for_package (package_id : Option Str) (icons_dir : Option (List Str))
    (icon_url_pfx : Option Str) : Option Str :=
  if ¬ truthyOpt package_id then none
  else
    match package_id, icons_dir with
    | some pkg, some entries =>
        match iconExts.find? (fun ext => entries.contains (pkg ++ ext)) with
        | some ext =>
            let icon_name := (pkg ++ ext).map (fun c => if c = '\\' then '/' else c)
            some (if truthyOpt icon_url_pfx then
                    (icon_url_pfx.getD []).rdropWhile (fun c => c = '/') ++ '/' :: icon_name
                  else iconsRel ++ icon_name)
        | none => none
    | _, _ => none

/-- Is the stanza excluded by the allow-list (a non-empty allow-list
that does not contain the basename; an absent or empty allow-list, both
falsy in the source, excludes nothing). -/
def onlyExcludes (only : Option (List Str)) (deb_name : Str) : Bool :=
  match only with
  | some l => !l.isEmpty && !l.contains deb_name
  | none => false

/-- Field keys as written by the program. -/
def kFilename : Str := "Filename".toList

def kPackage : Str := "Package".toList

def kVersion : Str := "Version".toList

def kArchitecture : Str := "Architecture".toList

def kIcon : Str := "Icon".toList

def kSize : Str := "Size".toList

def kMD5sum : Str := "MD5sum".toList

def kSHA1 : Str := "SHA1".toList

def kSHA256 : Str := "SHA256".toList

/-- The work of one loop iteration of build_update_plans on the stanza
at index i: the plan it contributes, or none when the iteration hits a
continue (no truthy Filename field, excluded by the allow-list, or no
resolvable artifact). -/
def planOf (fs : DebsDir) (icons_dir : Option (List Str)) (icon_url_pfx : Option Str)
    (only : Option (List Str)) (fix_metadata add_icons : Bool) (i : Nat) (stanza : Str) :
    Option UpdatePlan :=
  let lines := splitlines stanza
  let filename_field := (get_field lines kFilename).map Prod.snd
  if ¬ truthyOpt filename_field then none
  else
    let deb_name := basename (filename_field.getD [])
    if onlyExcludes only deb_name then none
    else
      match resolveArtifact fs deb_name with
      | none => none
      | some (actual_name, fix_filename) =>
          let info := fs.info actual_name
          let metaFix :=
            if fix_metadata then
              match parse_deb_filename actual_name with
              | some (pkg, ver, arch) =>
                  let cur_pkg := (get_field lines kPackage).map Prod.snd
                  let cur_ver := (get_field lines kVersion).map Prod.snd
                  let cur_arch := (get_field lines kArchitecture).map Prod.snd
                  ((if cur_pkg ≠ some pkg then some pkg else none),
                   (if cur_ver ≠ some ver then some ver else none),
                   (if cur_arch ≠ some arch then some arch else none),
                   some pkg)
              | none => (none, none, none, (get_field lines kPackage).map Prod.snd)
            else (none, none, none, (get_field lines kPackage).map Prod.snd)
          let icon_url := if add_icons
            then find_icon_for_package metaFix.2.2.2 icons_dir icon_url_pfx
            else none
          some { stanza_index := i, filename := actual_name, size := info.size,
                 md5 := info.md5, sha1 := info.sha1, sha256 := info.sha256,
                 fix_pkg := metaFix.1, fix_ver := metaFix.2.1, fix_arch := metaFix.2.2.1,
                 fix_filename := fix_filename, icon_url := icon_url }

/-- The body of build_update_plans, walking the stanzas with their
indices and collecting the plan of every iteration that produces one. -/
def buildPlansAux (fs : DebsDir) (icons_dir : Option (List Str)) (icon_url_pfx : Option Str)
    (only : Option (List Str)) (fix_metadata add_icons : Bool) :
    Nat → List Str → List UpdatePlan
  | _, [] => []
  | i, stanza :: rest =>
      let tail := buildPlansAux fs icons_dir icon_url_pfx only fix_metadata add_icons (i + 1) rest
      match planOf fs icons_dir icon_url_pfx only fix_metadata add_icons i stanza with
      | some plan => plan :: tail
      | none => tail

/-- build_update_plans, with the artifact directory, icon directory
listing and icon URL prefix made explicit parameters. -/
def build_update_plans (fs : DebsDir) (stanzas : List Str) (only : Option (List Str))
    (fix_metadata : Bool) (add_icons : Bool) (icons_dir : Option (List Str))
    (icon_url_pfx : Option Str) : List UpdatePlan :=
  buildPlansAux fs icons_dir icon_url_pfx only fix_metadata add_icons 0 stanzas

/-- The four size and hash field keys. -/
def hashKeys : List Str := [kSize, kMD5sum, kSHA1, kSHA256]

/-- One conditional correction of the applier: a truthy (present and
non-empty) correction value is written with set_field, anything else
leaves the lines unchanged. -/
def applyFix (lines : List Str) (key : Str) (fix : Option Str) : List Str :=
  match fix with
  | some v => if v.isEmpty then lines else set_field lines key v
  | none => lines

/-- The per-stanza transformation of apply_plans: remove the old size
and hash lines, apply the truthy corrections, then append the four
fresh lines in their fixed order. -/
def applyPlanLines (lines0 : List Str) (plan : UpdatePlan) : List Str :=
  let l1 := remove_fields lines0 hashKeys
  let l2 := applyFix l1 kPackage plan.fix_pkg
  let l3 := applyFix l2 kVersion plan.fix_ver
  let l4 := applyFix l3 kArchitecture plan.fix_arch
  let l5 := applyFix l4 kFilename plan.fix_filename
  let l6 := applyFix l5 kIcon plan.icon_url
  l6 ++ [kSize ++ ':' :: ' ' :: natToStr plan.size,
         kMD5sum ++ ':' :: ' ' :: plan.md5,
         kSHA1 ++ ':' :: ' ' :: plan.sha1,
         kSHA256 ++ ':' :: ' ' :: plan.sha256]

/-- The new stanza text built by apply_plans for one plan. -/
def applyPlanStanza (stanza : Str) (plan : UpdatePlan) : Str :=
  joinSep EOL (applyPlanLines (splitlines stanza) plan)

/-- apply_plans: rewrite, in order, the stanza named by each plan. -/
def apply_plans (stanzas : List Str) (plans : List UpdatePlan) : List Str :=
  plans.foldl (fun st plan =>
    st.set plan.stanza_index (applyPlanStanza (st.getD plan.stanza_index []) plan)) stanzas

/-- Does a stanza carry a truthy Filename field whose basename resolves
(exactly or fuzzily) to an artifact on disk. -/
def stanzaHasArtifact (fs : DebsDir) (stanza : Str) : Bool :=
  let filename_field := (get_field (splitlines stanza) kFilename).map Prod.snd
  truthyOpt filename_field &&
    (resolveArtifact fs (basename (filename_field.getD []))).isSome

/-- The full condition under which the planner emits a plan for a
stanza: truthy Filename field, not excluded by the allow-list, and a
resolvable artifact. -/
def stanzaPlanned (fs : DebsDir) (only : Option (List Str)) (stanza : Str) : Bool :=
  let filename_field := (get_field (splitlines stanza) kFilename).map Prod.snd
  truthyOpt filename_field &&
    !onlyExcludes only (basename (filename_field.getD [])) &&
    (resolveArtifact fs (basename (filename_field.getD []))).isSome

/-- A well-formed field key: non-empty, no whitespace, no colon.  Every
key the program passes to the field accessors has this shape. -/
def goodKey (K : Str) : Prop :=
  K ≠ [] ∧ ∀ c ∈ K, isPySpace c = false ∧ c ≠ ':'

/-- The value component of get_field. -/
def getVal (lines : List Str) (key : Str) : Option Str :=
  (get_field lines key).map Prod.snd

/-- What has to hold of one conditional correction step of the applier
so that it cannot disturb the first value of the key K: whenever the
step actually fires (a present, non-empty correction), its own key has
a different lowercased name than K and its built lines never match K. -/
def stepOK (K K2 : Str) (f : Option Str) : Prop :=
  ∀ v, f = some v → v ≠ [] →
    goodKey K2 ∧ toLowerStr K ≠ toLowerStr K2 ∧
      ∀ rest, matchField K (K2 ++ ':' :: rest) = none

/-! ## Basic character and strip lemmas -/

/-- Lowercasing does not change whether a character is whitespace. -/
theorem isPySpace_toLower (c : Char) : isPySpace (Char.toLower c) = isPySpace c := by
  by_cases h : 65 ≤ c.toNat ∧ c.toNat ≤ 90
  · obtain ⟨h1, h2⟩ := h
    interval_cases hn : c.toNat <;>
      (rw [← Char.ofNat_toNat c, hn]; decide)
  · have : Char.toLower c = c := by
      unfold Char.toLower
      simp only [ge_iff_le]
      rw [if_neg h]
    rw [this]

/-- Lowercasing does not introduce or remove a colon. -/
theorem toLower_eq_colon (c : Char) : Char.toLower c = ':' ↔ c = ':' := by
  by_cases h : 65 ≤ c.toNat ∧ c.toNat ≤ 90
  · obtain ⟨h1, h2⟩ := h
    interval_cases hn : c.toNat <;>
      (rw [← Char.ofNat_toNat c, hn]; decide)
  · have : Char.toLower c = c := by
      unfold Char.toLower
      simp only [ge_iff_le]
      rw [if_neg h]
    rw [this]

/-- The head of dropWhile does not satisfy the predicate. -/
theorem head?_dropWhile_false (p : Char → Bool) (l : List Char) (c : Char)
    (h : (l.dropWhile p).head? = some c) : p c = false := by
  induction l with
  | nil => simp at h
  | cons a t ih =>
      rw [List.dropWhile_cons] at h
      by_cases hp : p a = true
      · rw [if_pos hp] at h
        exact ih h
      · rw [if_neg hp] at h
        simp only [List.head?_cons, Option.some_inj] at h
        subst h
        exact Bool.eq_false_iff.mpr hp

/-- Members of takeWhile satisfy the predicate. -/
theorem mem_takeWhile_sat (p : Char → Bool) (l : List Char) (c : Char)
    (h : c ∈ l.takeWhile p) : p c = true := by
  induction l with
  | nil => simp at h
  | cons a t ih =>
      rw [List.takeWhile_cons] at h
      by_cases hp : p a
      · simp only [hp, if_true, List.mem_cons] at h
        rcases h with rfl | h
        · exact hp
        · exact ih h



      · simp [hp] at h

/-- A string strips to nothing exactly when it is all whitespace. -/
theorem strip_eq_nil_iff (l : Str) : strip l = [] ↔ ∀ c ∈ l, isPySpace c := by
  unfold strip
  rw [List.rdropWhile_eq_nil_iff]
  constructor
  · intro h c hc
    rcases List.mem_append.mp ((List.takeWhile_append_dropWhile (p := isPySpace) (l := l)) ▸ hc) with
      h1 | h2
    · exact mem_takeWhile_sat _ _ _ h1
    · exact h _ h2
  · intro h c hc
    exact h c (List.dropWhile_sublist (p := isPySpace) (l := l) |>.mem hc)

/-- The head of a non-empty stripped string is not whitespace. -/
theorem strip_head?_false (l : Str) (c : Char) (h : (strip l).head? = some c) :
    isPySpace c = false := by
  obtain ⟨t, ht⟩ := List.rdropWhile_prefix (p := isPySpace) (l := l.dropWhile isPySpace)
  apply head?_dropWhile_false isPySpace l c
  rw [← ht]
  unfold strip at h
  cases hsp : (l.dropWhile isPySpace).rdropWhile isPySpace with
  | nil => rw [hsp] at h; simp at h
  | cons a rest =>
      rw [hsp] at h
      simp only [List.head?_cons, Option.some_inj] at h
      subst h
      simp

/-- The last character of a non-empty stripped string is not whitespace. -/
theorem strip_getLast?_false (l : Str) (c : Char) (h : (strip l).getLast? = some c) :
    isPySpace c = false := by
  have hne : strip l ≠ [] := by
    intro hnil
    rw [hnil] at h
    simp at h
  have := List.rdropWhile_last_not (p := isPySpace) (l := l.dropWhile isPySpace) hne
  rw [List.getLast?_eq_getLast _ hne, Option.some_inj] at h
  rw [← h]
  exact Bool.eq_false_iff.mpr this

/-- Stripping is idempotent. -/
theorem strip_idem (l : Str) : strip (strip l) = strip l := by
  by_cases h : strip l = []
  · rw [h]; rfl
  · show (((strip l).dropWhile isPySpace).rdropWhile isPySpace) = strip l
    have h1 : (strip l).dropWhile isPySpace = strip l := by
      cases hsl : strip l with
      | nil => rfl
      | cons a rest =>
          have hh : isPySpace a = false := strip_head?_false l a (by rw [hsl]; rfl)
          rw [List.dropWhile_cons, hh]
          simp
    rw [h1, List.rdropWhile_eq_self_iff]
    intro hl hp
    have hh : (strip l).getLast? = some ((strip l).getLast hl) :=
      List.getLast?_eq_getLast _ hl
    have := strip_getLast?_false l _ hh
    rw [this] at hp
    simp at hp

/-! ## Deb filename parsing (C4) -/

/-- splitFirst finds nothing when the character is absent. -/
theorem splitFirst_of_not_mem (c : Char) (l : Str) (h : c ∉ l) : splitFirst c l = none := by
  induction l with
  | nil => rfl
  | cons d rest ih =>
      rw [splitFirst]
      rw [List.mem_cons, not_or] at h
      rw [if_neg (fun hdc => h.1 hdc.symm), ih h.2]
      rfl

/-- splitFirst splits at the first occurrence. -/
theorem splitFirst_first (c : Char) (u w : Str) (h : c ∉ u) :
    splitFirst c (u ++ c :: w) = some (u, w) := by
  induction u with
  | nil => simp [splitFirst]
  | cons d rest ih =>
      rw [List.mem_cons, not_or] at h
      rw [List.cons_append, splitFirst, if_neg (fun hdc => h.1 hdc.symm), ih h.2]
      rfl

/-- rsplit2 on a string with at least two separators peels exactly the
last two fields. -/
theorem rsplit2_three (x y z : Str) (hy : '_' ∉ y) (hz : '_' ∉ z) :
    rsplit2 (x ++ '_' :: (y ++ '_' :: z)) '_' = [x, y, z] := by
  have hrev : (x ++ '_' :: (y ++ '_' :: z)).reverse =
      z.reverse ++ '_' :: (y.reverse ++ '_' :: x.reverse) := by
    simp [List.reverse_append]
  rw [rsplit2, hrev, splitFirst_first _ _ _ (by simpa using hz)]
  dsimp only
  rw [splitFirst_first _ _ _ (by simpa using hy)]
  simp

/-- Dropping the length-four suffix dot-deb recovers the base name. -/
theorem take_base (u : Str) : (u ++ dotDeb).take ((u ++ dotDeb).length - 4) = u := by
  have h4 : dotDeb.length = 4 := rfl
  rw [List.length_append, h4]
  exact List.take_left' (by omega)

/-- C4: parse_deb_filename splits a dot-deb name into exactly three
segments from the right on underscore (the package absorbing extra
underscores), drops a leading letter v or V from the version when at
least one character follows it, keeps only the architecture before the
first dot, returns none when the split does not yield three segments,
and in particular maps the two specification examples to the stated
triples. -/
theorem C4_parse_deb_filename :
    (∀ p v a : Str, '_' ∉ v → '_' ∉ a →
      parse_deb_filename (p ++ '_' :: (v ++ '_' :: (a ++ dotDeb))) =
        some (p,
          (if (v.head? = some 'v' ∨ v.head? = some 'V') ∧ 1 < v.length then v.drop 1 else v),
          (if a.contains '.' then a.takeWhile (fun c => c ≠ '.') else a))) ∧
    (∀ b : Str, (rsplit2 b '_').length ≠ 3 → parse_deb_filename (b ++ dotDeb) = none) ∧
    parse_deb_filename "foo.bar_1.2.3-1_iphoneos-arm.deb".toList =
      some ("foo.bar".toList, "1.2.3-1".toList, "iphoneos-arm".toList) ∧
    parse_deb_filename "foo_v2.0_arm.extra.deb".toList =
      some ("foo".toList, "2.0".toList, "arm".toList) := by
  refine ⟨?_, ?_, by decide, by decide⟩
  · intro p v a hv ha
    have hglue : p ++ '_' :: (v ++ '_' :: (a ++ dotDeb)) =
        (p ++ '_' :: (v ++ '_' :: a)) ++ dotDeb := by simp
    rw [hglue]
    have hsuf : dotDeb.isSuffixOf ((p ++ '_' :: (v ++ '_' :: a)) ++ dotDeb) = true := by
      simp only [List.isSuffixOf_iff_suffix]
      exact ⟨p ++ '_' :: (v ++ '_' :: a), rfl⟩
    rw [parse_deb_filename, if_neg (by simp only [hsuf]; simp), take_base,
      rsplit2_three p v a hv ha]
  · intro b hb
    have hsuf : dotDeb.isSuffixOf (b ++ dotDeb) = true := by
      simp only [List.isSuffixOf_iff_suffix]
      exact ⟨b, rfl⟩
    rw [parse_deb_filename, if_neg (by simp only [hsuf]; simp), take_base]
    rcases h3 : rsplit2 b '_' with _ | ⟨s1, _ | ⟨s2, _ | ⟨s3, rest⟩⟩⟩ <;>
      simp_all

/-- Witness for C4 at concrete inputs discharging its hypotheses. -/
theorem C4_parse_deb_filename_witness :
    parse_deb_filename ("aa.b".toList ++ '_' :: ("v7".toList ++ '_' :: ("arm64.x".toList ++ dotDeb))) =
      some ("aa.b".toList, "7".toList, "arm64".toList) ∧
    parse_deb_filename ("nounderscore".toList ++ dotDeb) = none := by
  constructor
  · have := C4_parse_deb_filename.1 "aa.b".toList "v7".toList "arm64.x".toList
      (by decide) (by decide)
    rw [this]
    decide
  · exact C4_parse_deb_filename.2.1 "nounderscore".toList (by decide)

/-! ## Field accessor machinery -/

/-- Lowercasing preserves length. -/
theorem toLowerStr_length (l : Str) : (toLowerStr l).length = l.length :=
  List.length_map _ _

/-- A string of non-whitespace characters strips to itself. -/
theorem strip_all_nonspace (K : Str) (h : ∀ c ∈ K, isPySpace c = false) :
    strip K = K := by
  unfold strip
  have h1 : K.dropWhile isPySpace = K := by
    cases K with
    | nil => rfl
    | cons a t =>
        rw [List.dropWhile_cons, h a (List.mem_cons_self a t)]
        simp
  rw [h1, List.rdropWhile_eq_self_iff]
  intro hl hp
  rw [h _ (List.getLast_mem hl)] at hp
  simp at hp

/-- takeWhile collects a fully satisfying block up to a failing head. -/
theorem takeWhile_all_append (p : Char → Bool) (u : Str) (y : Char) (t : Str)
    (hu : ∀ x ∈ u, p x = true) (hy : p y = false) :
    List.takeWhile p (u ++ y :: t) = u := by
  induction u with
  | nil => simp [List.takeWhile_cons, hy]
  | cons a rest ih =>
      rw [List.cons_append, List.takeWhile_cons, hu a (List.mem_cons_self a rest)]
      simp only [if_true]
      rw [ih (fun x hx => hu x (List.mem_cons_of_mem a hx))]

/-- dropWhile skips over a fully satisfying block. -/
theorem dropWhile_all_append (p : Char → Bool) (u t : Str)
    (hu : ∀ x ∈ u, p x = true) :
    List.dropWhile p (u ++ t) = List.dropWhile p t := by
  induction u with
  | nil => rfl
  | cons a rest ih =>
      rw [List.cons_append, List.dropWhile_cons, hu a (List.mem_cons_self a rest)]
      simp only [if_true]
      exact ih (fun x hx => hu x (List.mem_cons_of_mem a hx))

/-- rdropWhile removes a fully satisfying trailing block. -/
theorem rdropWhile_all_append (p : Char → Bool) (t w : Str)
    (hw : ∀ x ∈ w, p x = true) :
    List.rdropWhile p (t ++ w) = List.rdropWhile p t := by
  unfold List.rdropWhile
  rw [List.reverse_append, dropWhile_all_append p w.reverse t.reverse
    (fun x hx => hw x (List.mem_reverse.mp hx))]

/-- The field regex on a line built from the key itself: the match
reduces to the value-tail analysis. -/
theorem mf_build (K rest : Str) (hK : goodKey K) :
    matchField K (K ++ ':' :: rest) = fieldValueOfRest rest := by
  obtain ⟨hne, hchar⟩ := hK
  have hdw : (K ++ ':' :: rest).dropWhile isPySpace = K ++ ':' :: rest := by
    cases K with
    | nil => exact absurd rfl hne
    | cons a t =>
        rw [List.cons_append, List.dropWhile_cons,
          (hchar a (List.mem_cons_self a t)).1]
        simp
  have hkey : keyAtHead K (K ++ ':' :: rest) = true := by
    unfold keyAtHead
    rw [List.take_left' rfl]
    exact beq_self_eq_true _
  rw [matchField]
  simp only [hdw, hkey, if_true]
  rw [List.drop_left' rfl, List.dropWhile_cons]
  rw [show isPySpace ':' = false from by decide]
  rfl

/-- A line built from one key never matches a key with a different
lowercased first letter. -/
theorem mf_mismatch (a b : Char) (K K' rest : Str)
    (hb : isPySpace b = false)
    (hne : Char.toLower a ≠ Char.toLower b) :
    matchField (a :: K) ((b :: K') ++ ':' :: rest) = none := by
  have hdw : ((b :: K') ++ ':' :: rest).dropWhile isPySpace = (b :: K') ++ ':' :: rest := by
    rw [List.cons_append, List.dropWhile_cons, hb]
    simp
  have hkey : keyAtHead (a :: K) ((b :: K') ++ ':' :: rest) = false := by
    unfold keyAtHead
    rw [List.cons_append]
    simp only [List.length_cons, List.take_succ_cons, toLowerStr, List.map_cons]
    rw [Bool.eq_false_iff]
    intro hbeq
    rw [beq_iff_eq] at hbeq
    injection hbeq with h1 _
    exact hne h1.symm
  rw [matchField]
  simp only [hdw, hkey]
  simp

/-- The field name of a line built from a good key is the lowercased
key, whatever the value text is. -/
theorem fieldNameOf_build (K rest : Str) (hK : goodKey K) :
    fieldNameOf (K ++ ':' :: rest) = some (toLowerStr K) := by
  obtain ⟨hne, hchar⟩ := hK
  have hpre : (K ++ ':' :: rest).takeWhile (fun c => c ≠ ':') = K := by
    apply takeWhile_all_append
    · intro x hx
      simp [(hchar x hx).2]
    · simp
  rw [fieldNameOf]
  simp only [hpre]
  have h1 : K.isEmpty = false := by
    cases K with
    | nil => exact absurd rfl hne
    | cons a t => rfl
  have h2 : (K.length == (K ++ ':' :: rest).length) = false := by
    rw [List.length_append, List.length_cons, Bool.eq_false_iff]
    intro hh
    rw [beq_iff_eq] at hh
    omega
  rw [h1, h2]
  simp [strip_all_nonspace K (fun c hc => (hchar c hc).1)]

/-- Any line the field regex matches for a good key carries that key
(lowercased) as its field name: the regexes agree on which field a
matching line declares. -/
theorem fieldNameOf_ofMatch (K ln v : Str) (hK : goodKey K)
    (h : matchField K ln = some v) : fieldNameOf ln = some (toLowerStr K) := by
  obtain ⟨hne, hchar⟩ := hK
  unfold matchField at h
  by_cases hkey : keyAtHead K (ln.dropWhile isPySpace) = true
  case neg =>
    rw [if_neg hkey] at h
    exact absurd h (by simp)
  rw [if_pos hkey] at h
  split at h
  pick_goal 2
  · exact absurd h (by simp)
  rename_i rest hm
  -- Notation for the pieces of the line.
  set s0 := ln.takeWhile isPySpace with hs0
  set l1 := ln.dropWhile isPySpace with hl1
  set k' := l1.take K.length with hk'
  set m := l1.drop K.length with hmdef
  set w2 := m.takeWhile isPySpace with hw2
  have hlow : toLowerStr k' = toLowerStr K := by
    unfold keyAtHead at hkey
    rw [beq_iff_eq] at hkey
    exact hkey
  have hklen : k'.length = K.length := by
    have := congrArg List.length hlow
    rwa [toLowerStr_length, toLowerStr_length] at this
  have hkne : k' ≠ [] := by
    intro hnil
    rw [hnil] at hklen
    cases K with
    | nil => exact hne rfl
    | cons a t => simp at hklen
  have hkchar : ∀ c ∈ k', isPySpace c = false ∧ c ≠ ':' := by
    intro c hcmem
    have hmap : Char.toLower c ∈ toLowerStr K := by
      rw [← hlow]
      exact List.mem_map_of_mem _ hcmem
    obtain ⟨d, hdmem, hd⟩ := List.mem_map.mp hmap
    constructor
    · rw [← isPySpace_toLower c, ← hd, isPySpace_toLower d]
      exact (hchar d hdmem).1
    · intro hcolon
      subst hcolon
      have : Char.toLower d = ':' := by
        rw [hd]
        decide
      exact (hchar d hdmem).2 ((toLower_eq_colon d).mp this)
  have hs0space : ∀ c ∈ s0, isPySpace c = true := fun c hc => mem_takeWhile_sat _ _ _ hc
  have hw2space : ∀ c ∈ w2, isPySpace c = true := fun c hc => mem_takeWhile_sat _ _ _ hc
  have hln : ln = s0 ++ (k' ++ (w2 ++ ':' :: rest)) := by
    have e1 : s0 ++ l1 = ln := List.takeWhile_append_dropWhile isPySpace ln
    have e2 : k' ++ m = l1 := List.take_append_drop _ _
    have e3 : w2 ++ ':' :: rest = m := by
      rw [hw2, ← hm]
      exact List.takeWhile_append_dropWhile isPySpace m
    rw [e3, e2, e1]
  have hucolon : ∀ x ∈ s0 ++ k' ++ w2, (fun c => decide (c ≠ ':')) x = true := by
    intro x hx
    simp only [List.append_assoc, List.mem_append] at hx
    rcases hx with hx | hx | hx
    · have := hs0space x hx
      simp only [decide_eq_true_eq]
      intro hxc
      subst hxc
      exact absurd this (by decide)
    · simp [(hkchar x hx).2]
    · have := hw2space x hx
      simp only [decide_eq_true_eq]
      intro hxc
      subst hxc
      exact absurd this (by decide)
  have hpre : ln.takeWhile (fun c => c ≠ ':') = s0 ++ k' ++ w2 := by
    conv_lhs => rw [hln]
    rw [show s0 ++ (k' ++ (w2 ++ ':' :: rest)) = (s0 ++ k' ++ w2) ++ ':' :: rest by simp]
    exact takeWhile_all_append _ _ _ _ hucolon (by simp)
  have hpre_ne : (s0 ++ k' ++ w2).isEmpty = false := by
    rcases k' with _ | ⟨a, t⟩
    · exact absurd rfl hkne
    · rcases s0 with _ | ⟨b, u⟩ <;> rfl
  have hpre_len : ((s0 ++ k' ++ w2).length == ln.length) = false := by
    rw [Bool.eq_false_iff]
    intro hh
    rw [beq_iff_eq] at hh
    rw [hln] at hh
    simp only [List.length_append, List.length_cons] at hh
    omega
  have hstrip : strip (s0 ++ k' ++ w2) = k' := by
    unfold strip
    rw [List.append_assoc, dropWhile_all_append _ _ _ hs0space]
    have hkw : (k' ++ w2).dropWhile isPySpace = k' ++ w2 := by
      rcases hk : k' with _ | ⟨a, t⟩
      · exact absurd hk hkne
      · rw [List.cons_append, List.dropWhile_cons,
          (hkchar a (by rw [hk]; exact List.mem_cons_self a t)).1]
        simp
    rw [hkw, rdropWhile_all_append _ _ _ hw2space, List.rdropWhile_eq_self_iff]
    intro hl hp
    rw [(hkchar _ (List.getLast_mem hl)).1] at hp
    simp at hp
  rw [fieldNameOf]
  simp only [hpre, hpre_ne, hpre_len, Bool.or_self, Bool.false_eq_true, if_false, hstrip, hlow]

/-- Head-shaped variant of the mismatch lemma. -/
theorem mf_mismatch2 (K K' rest : Str) (a b : Char)
    (ha : K.head? = some a) (hb : K'.head? = some b)
    (hsp : isPySpace b = false) (hne : Char.toLower a ≠ Char.toLower b) :
    matchField K (K' ++ ':' :: rest) = none := by
  cases K with
  | nil => simp at ha
  | cons a0 t =>
      cases K' with
      | nil => simp at hb
      | cons b0 t' =>
          simp only [List.head?_cons, Option.some_inj] at ha hb
          subst ha
          subst hb
          exact mf_mismatch _ _ t t' rest hsp hne

/-- Unfolding getFieldAux at a matching head line. -/
theorem getFieldAux_cons_some (K ln : Str) (ls : List Str) (i : Nat) (v : Str)
    (h : matchField K ln = some v) :
    getFieldAux K (ln :: ls) i = some (i, v) := by
  simp [getFieldAux, h]

/-- Unfolding getFieldAux at a non-matching head line. -/
theorem getFieldAux_cons_none (K ln : Str) (ls : List Str) (i : Nat)
    (h : matchField K ln = none) :
    getFieldAux K (ln :: ls) i = getFieldAux K ls (i + 1) := by
  simp [getFieldAux, h]

/-- The value component of getFieldAux ignores the running index. -/
theorem getFieldAux_val_irrel (K : Str) (lines : List Str) (i j : Nat) :
    (getFieldAux K lines i).map Prod.snd = (getFieldAux K lines j).map Prod.snd := by
  induction lines generalizing i j with
  | nil => rfl
  | cons ln ls ih =>
      rw [getFieldAux, getFieldAux]
      cases matchField K ln with
      | some v => rfl
      | none => exact ih _ _

/-- Filtering away only non-matching lines preserves the first value. -/
theorem getVal_filter (K : Str) (pred : Str → Bool) (lines : List Str)
    (h : ∀ ln ∈ lines, pred ln = false → matchField K ln = none) :
    getVal (lines.filter pred) K = getVal lines K := by
  unfold getVal get_field
  induction lines with
  | nil => rfl
  | cons ln ls ih =>
      have hih := ih (fun x hx hp => h x (List.mem_cons_of_mem ln hx) hp)
      rw [List.filter_cons]
      by_cases hp : pred ln = true
      · rw [if_pos hp]
        cases hmf : matchField K ln with
        | some v => rw [getFieldAux_cons_some K ln _ 0 v hmf, getFieldAux_cons_some K ln _ 0 v hmf]
        | none =>
            rw [getFieldAux_cons_none K ln _ 0 hmf, getFieldAux_cons_none K ln _ 0 hmf,
              getFieldAux_val_irrel K (List.filter pred ls) 1 0,
              getFieldAux_val_irrel K ls 1 0]
            exact hih
      · rw [if_neg hp,
          getFieldAux_cons_none K ln ls 0 (h ln (List.mem_cons_self ln ls) (Bool.eq_false_iff.mpr hp)),
          getFieldAux_val_irrel K ls 1 0]
        exact hih

/-- Replacing a non-matching line with a non-matching line preserves
the first value. -/
theorem getVal_set_none (K : Str) (lines : List Str) (i : Nat) (ln' : Str)
    (hold : ∀ ln, lines[i]? = some ln → matchField K ln = none)
    (hnew : matchField K ln' = none) :
    getVal (lines.set i ln') K = getVal lines K := by
  unfold getVal get_field
  induction lines generalizing i with
  | nil => rfl
  | cons ln ls ih =>
      cases i with
      | zero =>
          rw [List.set_cons_zero,
            getFieldAux_cons_none K ln' ls 0 hnew,
            getFieldAux_cons_none K ln ls 0 (hold ln (by rw [List.getElem?_cons_zero]))]
      | succ n =>
          rw [List.set_cons_succ]
          cases hmf : matchField K ln with
          | some v => rw [getFieldAux_cons_some K ln _ 0 v hmf, getFieldAux_cons_some K ln _ 0 v hmf]
          | none =>
              rw [getFieldAux_cons_none K ln _ 0 hmf, getFieldAux_cons_none K ln _ 0 hmf,
                getFieldAux_val_irrel K (ls.set n ln') 1 0,
                getFieldAux_val_irrel K ls 1 0]
              exact ih n (fun x hx => hold x (by rwa [List.getElem?_cons_succ]))

/-- Appending only non-matching lines preserves the first value. -/
theorem getVal_append_all_none (K : Str) (lines extra : List Str)
    (h : ∀ ln ∈ extra, matchField K ln = none) :
    getVal (lines ++ extra) K = getVal lines K := by
  unfold getVal get_field
  induction lines with
  | nil =>
      simp only [List.nil_append]
      have hnone : ∀ i, getFieldAux K extra i = none := by
        induction extra with
        | nil => intro i; rfl
        | cons e es ihe =>
            intro i
            rw [getFieldAux_cons_none K e es i (h e (List.mem_cons_self e es))]
            exact ihe (fun x hx => h x (List.mem_cons_of_mem e hx)) (i + 1)
      rw [hnone 0]
      rfl
  | cons ln ls ih =>
      rw [List.cons_append]
      cases hmf : matchField K ln with
      | some v => rw [getFieldAux_cons_some K ln _ 0 v hmf, getFieldAux_cons_some K ln _ 0 v hmf]
      | none =>
          rw [getFieldAux_cons_none K ln _ 0 hmf, getFieldAux_cons_none K ln _ 0 hmf,
            getFieldAux_val_irrel K (ls ++ extra) 1 0, getFieldAux_val_irrel K ls 1 0]
          exact ih

/-- A found field points at a line matching the key. -/
theorem get_field_mem_match (K : Str) (lines : List Str) (i : Nat) (v : Str)
    (h : get_field lines K = some (i, v)) :
    ∃ ln, lines[i]? = some ln ∧ matchField K ln = some v := by
  unfold get_field at h
  suffices haux : ∀ (ls : List Str) (s j : Nat) (w : Str),
      getFieldAux K ls s = some (j, w) →
      ∃ ln, ls[j - s]? = some ln ∧ matchField K ln = some w ∧ s ≤ j by
    obtain ⟨ln, h1, h2, _⟩ := haux lines 0 i v h
    exact ⟨ln, by simpa using h1, h2⟩
  intro ls
  induction ls with
  | nil => intro s j w hw; simp [getFieldAux] at hw
  | cons ln ls ih =>
      intro s j w hw
      cases hmf : matchField K ln with
      | some u =>
          rw [getFieldAux_cons_some K ln _ s u hmf] at hw
          simp only [Option.some_inj, Prod.mk.injEq] at hw
          obtain ⟨rfl, rfl⟩ := hw
          exact ⟨ln, by simp, hmf, Nat.le_refl _⟩
      | none =>
          rw [getFieldAux_cons_none K ln _ s hmf] at hw
          obtain ⟨ln2, h1, h2, h3⟩ := ih (s + 1) j w hw
          refine ⟨ln2, ?_, h2, by omega⟩
          have : j - s = (j - (s + 1)) + 1 := by omega
          rw [this, List.getElem?_cons_succ]
          exact h1

/-- set_field with a different good key preserves the first value of
this key. -/
theorem set_field_getVal (lines : List Str) (K K' v : Str)
    (hK : goodKey K) (hK' : goodKey K')
    (hdiff : toLowerStr K ≠ toLowerStr K')
    (hnomatch : ∀ rest, matchField K (K' ++ ':' :: rest) = none) :
    getVal (set_field lines K' v) K = getVal lines K := by
  unfold set_field
  cases hg : get_field lines K' with
  | none =>
      exact getVal_append_all_none K lines [K' ++ ':' :: ' ' :: v]
        (by intro ln hln; rw [List.mem_singleton] at hln; subst hln; exact hnomatch (' ' :: v))
  | some p =>
      obtain ⟨i, w⟩ := p
      obtain ⟨ln, hln, hmatch⟩ := get_field_mem_match K' lines i w hg
      apply getVal_set_none
      · intro ln2 hln2
        rw [hln, Option.some_inj] at hln2
        subst hln2
        cases hmm : matchField K ln with
        | none => rfl
        | some u =>
            have e1 := fieldNameOf_ofMatch K ln u hK hmm
            have e2 := fieldNameOf_ofMatch K' ln w hK' hmatch
            rw [e1, Option.some_inj] at e2
            exact absurd e2 hdiff
      · exact hnomatch (' ' :: v)

/-- remove_fields for other keys preserves the first value of this
key. -/
theorem remove_fields_getVal (lines : List Str) (K : Str) (keys : List Str)
    (hK : goodKey K) (hnot : toLowerStr K ∉ keys.map toLowerStr) :
    getVal (remove_fields lines keys) K = getVal lines K := by
  unfold remove_fields
  apply getVal_filter
  intro ln _hln hpred
  cases hfn : fieldNameOf ln with
  | none => rw [hfn] at hpred; simp at hpred
  | some nm =>
      rw [hfn] at hpred
      simp only [Bool.not_eq_false'] at hpred
      rw [List.contains_eq_any_beq] at hpred
      rw [List.any_eq_true] at hpred
      obtain ⟨nm2, hnm2, hbeq⟩ := hpred
      rw [beq_iff_eq] at hbeq
      subst hbeq
      cases hmm : matchField K ln with
      | none => rfl
      | some u =>
          have e1 := fieldNameOf_ofMatch K ln u hK hmm
          rw [hfn, Option.some_inj] at e1
          rw [e1] at hnm2
          exact absurd hnm2 hnot

/-! ## Empty and whitespace-only field values (C10) -/

/-- The value-tail regex on a non-empty all-whitespace tail without a
newline: it matches (the greedy whitespace gives back one character)
and the stripped captured value is empty. -/
theorem fieldValueOfRest_all_space (w : Str) (hne : w ≠ [])
    (hsp : ∀ c ∈ w, isPySpace c = true) (hnl : '\n' ∉ w) :
    fieldValueOfRest w = some [] := by
  have hdrop : w.dropWhile isPySpace = [] :=
    List.dropWhile_eq_nil_iff.mpr (fun x hx => hsp x hx)
  obtain ⟨c, hc⟩ : ∃ c, w.getLast? = some c := by
    cases hw : w.getLast? with
    | none => rw [List.getLast?_eq_none_iff] at hw; exact absurd hw hne
    | some c => exact ⟨c, rfl⟩
  have hcw : c ∈ w := List.mem_of_mem_getLast? (by rw [hc]; rfl)
  have hcnl : c ≠ '\n' := fun h => hnl (h ▸ hcw)
  unfold fieldValueOfRest
  rw [if_neg (by simp [hne])]
  simp only [hc, Option.some_inj]
  rw [if_neg hcnl, hdrop]
  simp only [List.isEmpty_nil, if_true, hc, if_neg hcnl]

/-- C10 (amended): a field line with nothing at all after the colon is
reported as not found, so set_field appends a new line and both lines
remain; but a field line whose value text is whitespace-only (and
newline-free) IS found, with the empty string as its value, and
set_field replaces it in place. -/
theorem C10_empty_value_amended : ∀ K v : Str, goodKey K →
    (matchField K (K ++ [':']) = none ∧
     get_field [K ++ [':']] K = none ∧
     set_field [K ++ [':']] K v = [K ++ [':'], K ++ ':' :: ' ' :: v]) ∧
    (∀ w : Str, w ≠ [] → (∀ c ∈ w, isPySpace c = true) → '\n' ∉ w →
      get_field [K ++ ':' :: w] K = some (0, []) ∧
      set_field [K ++ ':' :: w] K v = [K ++ ':' :: ' ' :: v]) := by
  intro K v hK
  constructor
  · have hmf : matchField K (K ++ [':']) = none := by
      rw [mf_build K [] hK]
      rfl
    have hget : get_field [K ++ [':']] K = none := by
      unfold get_field
      rw [getFieldAux_cons_none K _ _ 0 hmf]
      rfl
    refine ⟨hmf, hget, ?_⟩
    unfold set_field
    rw [hget]
    rfl
  · intro w hw1 hw2 hw3
    have hmf : matchField K (K ++ ':' :: w) = some [] := by
      rw [mf_build K w hK, fieldValueOfRest_all_space w hw1 hw2 hw3]
    have hget : get_field [K ++ ':' :: w] K = some (0, []) := by
      unfold get_field
      rw [getFieldAux_cons_some K _ _ 0 [] hmf]
    refine ⟨hget, ?_⟩
    unfold set_field
    rw [hget]
    rfl

/-- Witness for the amended C10 at a concrete key and value. -/
theorem C10_empty_value_witness :
    (matchField "Key".toList ("Key".toList ++ [':']) = none ∧
     get_field ["Key".toList ++ [':']] "Key".toList = none ∧
     set_field ["Key".toList ++ [':']] "Key".toList "v".toList =
       ["Key".toList ++ [':'], "Key".toList ++ ':' :: ' ' :: "v".toList]) ∧
    (get_field ["Key".toList ++ ':' :: [' ']] "Key".toList = some (0, []) ∧
     set_field ["Key".toList ++ ':' :: [' ']] "Key".toList "v".toList =
       ["Key".toList ++ ':' :: ' ' :: "v".toList]) := by
  have h := C10_empty_value_amended "Key".toList "v".toList ⟨by decide, by decide⟩
  exact ⟨h.1, h.2 [' '] (by decide) (by decide) (by decide)⟩

/-! ## Applier preservation of untouched fields (C9, C6) -/

/-- One applier correction step that satisfies its stepOK condition
preserves the first value of the key K. -/
theorem applyFix_getVal (l : List Str) (K K2 : Str) (f : Option Str)
    (hK : goodKey K) (hok : stepOK K K2 f) :
    getVal (applyFix l K2 f) K = getVal l K := by
  cases f with
  | none => rfl
  | some v =>
      cases v with
      | nil => rfl
      | cons c t =>
          obtain ⟨hgood, hne, hnm⟩ := hok (c :: t) rfl (by simp)
          show getVal (if (c :: t).isEmpty then l else set_field l K2 (c :: t)) K = getVal l K
          rw [show (c :: t).isEmpty = false from rfl, if_neg (by simp)]
          exact set_field_getVal l K K2 (c :: t) hK hgood hne hnm

/-- The applier transformation, written as the explicit chain of its
steps. -/
theorem applyPlanLines_eq (lines0 : List Str) (plan : UpdatePlan) :
    applyPlanLines lines0 plan =
      applyFix (applyFix (applyFix (applyFix (applyFix
        (remove_fields lines0 hashKeys)
        kPackage plan.fix_pkg) kVersion plan.fix_ver) kArchitecture plan.fix_arch)
        kFilename plan.fix_filename) kIcon plan.icon_url ++
      [kSize ++ ':' :: ' ' :: natToStr plan.size,
       kMD5sum ++ ':' :: ' ' :: plan.md5,
       kSHA1 ++ ':' :: ' ' :: plan.sha1,
       kSHA256 ++ ':' :: ' ' :: plan.sha256] := rfl

/-- Master preservation lemma: the applier leaves the first value of
the key K unchanged whenever K is not one of the hash keys, never
matches a freshly built hash line, and every correction step satisfies
its stepOK condition for K. -/
theorem applyPlan_getVal_pres (lines : List Str) (p : UpdatePlan) (K : Str)
    (hK : goodKey K)
    (hname : toLowerStr K ∉ hashKeys.map toLowerStr)
    (hS : ∀ rest, matchField K (kSize ++ ':' :: rest) = none)
    (hM : ∀ rest, matchField K (kMD5sum ++ ':' :: rest) = none)
    (h1 : ∀ rest, matchField K (kSHA1 ++ ':' :: rest) = none)
    (h2 : ∀ rest, matchField K (kSHA256 ++ ':' :: rest) = none)
    (sP : stepOK K kPackage p.fix_pkg) (sV : stepOK K kVersion p.fix_ver)
    (sA : stepOK K kArchitecture p.fix_arch) (sF : stepOK K kFilename p.fix_filename)
    (sI : stepOK K kIcon p.icon_url) :
    getVal (applyPlanLines lines p) K = getVal lines K := by
  rw [applyPlanLines_eq]
  rw [getVal_append_all_none K _ _ (by
    intro ln hln
    simp only [List.mem_cons, List.not_mem_nil, or_false] at hln
    rcases hln with rfl | rfl | rfl | rfl
    · exact hS _
    · exact hM _
    · exact h1 _
    · exact h2 _)]
  rw [applyFix_getVal _ K kIcon _ hK sI,
    applyFix_getVal _ K kFilename _ hK sF,
    applyFix_getVal _ K kArchitecture _ hK sA,
    applyFix_getVal _ K kVersion _ hK sV,
    applyFix_getVal _ K kPackage _ hK sP]
  exact remove_fields_getVal lines K hashKeys hK hname

/-- A non-truthy correction step trivially satisfies stepOK. -/
theorem stepOK_of_empty (K K2 : Str) (f : Option Str)
    (h : f = some [] ∨ f = none) : stepOK K K2 f := by
  intro v hv hvne
  rcases h with h | h <;> rw [h] at hv
  · rw [Option.some_inj] at hv
    exact absurd hv.symm hvne
  · exact absurd hv (by simp)

/-- C9: apply_plans applies a recorded Package, Version, Architecture,
Filename or Icon correction only when the correction value is a
non-empty string.  A plan carrying an empty-string correction for one
of these fields leaves that field of the stanza unchanged: the value
get_field reports for that key after the applier ran is the value it
reported before. -/
theorem C9_empty_corrections (lines : List Str) (p : UpdatePlan) :
    (p.fix_pkg = some [] →
      getVal (applyPlanLines lines p) kPackage = getVal lines kPackage) ∧
    (p.fix_ver = some [] →
      getVal (applyPlanLines lines p) kVersion = getVal lines kVersion) ∧
    (p.fix_arch = some [] →
      getVal (applyPlanLines lines p) kArchitecture = getVal lines kArchitecture) ∧
    (p.fix_filename = some [] →
      getVal (applyPlanLines lines p) kFilename = getVal lines kFilename) ∧
    (p.icon_url = some [] →
      getVal (applyPlanLines lines p) kIcon = getVal lines kIcon) := by
  refine ⟨fun hp => ?_, fun hp => ?_, fun hp => ?_, fun hp => ?_, fun hp => ?_⟩
  · exact applyPlan_getVal_pres lines p kPackage ⟨by decide, by decide⟩ (by decide)
      (fun rest => mf_mismatch2 _ _ rest 'P' 'S' (by decide) (by decide) (by decide) (by decide))
      (fun rest => mf_mismatch2 _ _ rest 'P' 'M' (by decide) (by decide) (by decide) (by decide))
      (fun rest => mf_mismatch2 _ _ rest 'P' 'S' (by decide) (by decide) (by decide) (by decide))
      (fun rest => mf_mismatch2 _ _ rest 'P' 'S' (by decide) (by decide) (by decide) (by decide))
      (stepOK_of_empty _ _ _ (Or.inl hp))
      (fun v hv hvne => ⟨⟨by decide, by decide⟩, by decide,
        fun rest => mf_mismatch2 _ _ rest 'P' 'V' (by decide) (by decide) (by decide) (by decide)⟩)
      (fun v hv hvne => ⟨⟨by decide, by decide⟩, by decide,
        fun rest => mf_mismatch2 _ _ rest 'P' 'A' (by decide) (by decide) (by decide) (by decide)⟩)
      (fun v hv hvne => ⟨⟨by decide, by decide⟩, by decide,
        fun rest => mf_mismatch2 _ _ rest 'P' 'F' (by decide) (by decide) (by decide) (by decide)⟩)
      (fun v hv hvne => ⟨⟨by decide, by decide⟩, by decide,
        fun rest => mf_mismatch2 _ _ rest 'P' 'I' (by decide) (by decide) (by decide) (by decide)⟩)
  · exact applyPlan_getVal_pres lines p kVersion ⟨by decide, by decide⟩ (by decide)
      (fun rest => mf_mismatch2 _ _ rest 'V' 'S' (by decide) (by decide) (by decide) (by decide))
      (fun rest => mf_mismatch2 _ _ rest 'V' 'M' (by decide) (by decide) (by decide) (by decide))
      (fun rest => mf_mismatch2 _ _ rest 'V' 'S' (by decide) (by decide) (by decide) (by decide))
      (fun rest => mf_mismatch2 _ _ rest 'V' 'S' (by decide) (by decide) (by decide) (by decide))
      (fun v hv hvne => ⟨⟨by decide, by decide⟩, by decide,
        fun rest => mf_mismatch2 _ _ rest 'V' 'P' (by decide) (by decide) (by decide) (by decide)⟩)
      (stepOK_of_empty _ _ _ (Or.inl hp))
      (fun v hv hvne => ⟨⟨by decide, by decide⟩, by decide,
        fun rest => mf_mismatch2 _ _ rest 'V' 'A' (by decide) (by decide) (by decide) (by decide)⟩)
      (fun v hv hvne => ⟨⟨by decide, by decide⟩, by decide,
        fun rest => mf_mismatch2 _ _ rest 'V' 'F' (by decide) (by decide) (by decide) (by decide)⟩)
      (fun v hv hvne => ⟨⟨by decide, by decide⟩, by decide,
        fun rest => mf_mismatch2 _ _ rest 'V' 'I' (by decide) (by decide) (by decide) (by decide)⟩)
  · exact applyPlan_getVal_pres lines p kArchitecture ⟨by decide, by decide⟩ (by decide)
      (fun rest => mf_mismatch2 _ _ rest 'A' 'S' (by decide) (by decide) (by decide) (by decide))
      (fun rest => mf_mismatch2 _ _ rest 'A' 'M' (by decide) (by decide) (by decide) (by decide))
      (fun rest => mf_mismatch2 _ _ rest 'A' 'S' (by decide) (by decide) (by decide) (by decide))
      (fun rest => mf_mismatch2 _ _ rest 'A' 'S' (by decide) (by decide) (by decide) (by decide))
      (fun v hv hvne => ⟨⟨by decide, by decide⟩, by decide,
        fun rest => mf_mismatch2 _ _ rest 'A' 'P' (by decide) (by decide) (by decide) (by decide)⟩)
      (fun v hv hvne => ⟨⟨by decide, by decide⟩, by decide,
        fun rest => mf_mismatch2 _ _ rest 'A' 'V' (by decide) (by decide) (by decide) (by decide)⟩)
      (stepOK_of_empty _ _ _ (Or.inl hp))
      (fun v hv hvne => ⟨⟨by decide, by decide⟩, by decide,
        fun rest => mf_mismatch2 _ _ rest 'A' 'F' (by decide) (by decide) (by decide) (by decide)⟩)
      (fun v hv hvne => ⟨⟨by decide, by decide⟩, by decide,
        fun rest => mf_mismatch2 _ _ rest 'A' 'I' (by decide) (by decide) (by decide) (by decide)⟩)
  · exact applyPlan_getVal_pres lines p kFilename ⟨by decide, by decide⟩ (by decide)
      (fun rest => mf_mismatch2 _ _ rest 'F' 'S' (by decide) (by decide) (by decide) (by decide))
      (fun rest => mf_mismatch2 _ _ rest 'F' 'M' (by decide) (by decide) (by decide) (by decide))
      (fun rest => mf_mismatch2 _ _ rest 'F' 'S' (by decide) (by decide) (by decide) (by decide))
      (fun rest => mf_mismatch2 _ _ rest 'F' 'S' (by decide) (by decide) (by decide) (by decide))
      (fun v hv hvne => ⟨⟨by decide, by decide⟩, by decide,
        fun rest => mf_mismatch2 _ _ rest 'F' 'P' (by decide) (by decide) (by decide) (by decide)⟩)
      (fun v hv hvne => ⟨⟨by decide, by decide⟩, by decide,
        fun rest => mf_mismatch2 _ _ rest 'F' 'V' (by decide) (by decide) (by decide) (by decide)⟩)
      (fun v hv hvne => ⟨⟨by decide, by decide⟩, by decide,
        fun rest => mf_mismatch2 _ _ rest 'F' 'A' (by decide) (by decide) (by decide) (by decide)⟩)
      (stepOK_of_empty _ _ _ (Or.inl hp))
      (fun v hv hvne => ⟨⟨by decide, by decide⟩, by decide,
        fun rest => mf_mismatch2 _ _ rest 'F' 'I' (by decide) (by decide) (by decide) (by decide)⟩)
  · exact applyPlan_getVal_pres lines p kIcon ⟨by decide, by decide⟩ (by decide)
      (fun rest => mf_mismatch2 _ _ rest 'I' 'S' (by decide) (by decide) (by decide) (by decide))
      (fun rest => mf_mismatch2 _ _ rest 'I' 'M' (by decide) (by decide) (by decide) (by decide))
      (fun rest => mf_mismatch2 _ _ rest 'I' 'S' (by decide) (by decide) (by decide) (by decide))
      (fun rest => mf_mismatch2 _ _ rest 'I' 'S' (by decide) (by decide) (by decide) (by decide))
      (fun v hv hvne => ⟨⟨by decide, by decide⟩, by decide,
        fun rest => mf_mismatch2 _ _ rest 'I' 'P' (by decide) (by decide) (by decide) (by decide)⟩)
      (fun v hv hvne => ⟨⟨by decide, by decide⟩, by decide,
        fun rest => mf_mismatch2 _ _ rest 'I' 'V' (by decide) (by decide) (by decide) (by decide)⟩)
      (fun v hv hvne => ⟨⟨by decide, by decide⟩, by decide,
        fun rest => mf_mismatch2 _ _ rest 'I' 'A' (by decide) (by decide) (by decide) (by decide)⟩)
      (fun v hv hvne => ⟨⟨by decide, by decide⟩, by decide,
        fun rest => mf_mismatch2 _ _ rest 'I' 'F' (by decide) (by decide) (by decide) (by decide)⟩)
      (stepOK_of_empty _ _ _ (Or.inl hp))

/-- Witness for C9 at a concrete stanza and plan. -/
theorem C9_empty_corrections_witness :
    getVal (applyPlanLines ["Package: x".toList, "Version: 2".toList]
      ⟨0, "f.deb".toList, 3, "m".toList, "s".toList, "t".toList,
        some [], some [], some [], some [], some []⟩) kPackage =
      getVal ["Package: x".toList, "Version: 2".toList] kPackage := by
  exact (C9_empty_corrections ["Package: x".toList, "Version: 2".toList]
    ⟨0, "f.deb".toList, 3, "m".toList, "s".toList, "t".toList,
      some [], some [], some [], some [], some []⟩).1 rfl

/-- Counterexample to C10 as stated: on a line whose value text is one
space (whitespace-only), get_field does find the key (at index zero,
with the empty value), and set_field consequently replaces the line
instead of appending, leaving a single line. -/
theorem C10_counterexample :
    ¬ (get_field ["Key: ".toList] "Key".toList = none ∧
       set_field ["Key: ".toList] "Key".toList "Value".toList =
         ["Key: ".toList, "Key: Value".toList]) := by
  intro h
  have : get_field ["Key: ".toList] "Key".toList = some (0, []) := by decide
  rw [h.1] at this
  exact absurd this (by simp)

/-! ## Planner structure lemmas -/

/-- A planner iteration produces a plan exactly when the stanza meets
the planned condition. -/
theorem planOf_isSome (fs : DebsDir) (icons : Option (List Str)) (ipfx : Option Str)
    (only : Option (List Str)) (fm ai : Bool) (i : Nat) (s : Str) :
    (planOf fs icons ipfx only fm ai i s).isSome = stanzaPlanned fs only s := by
  unfold planOf stanzaPlanned
  cases ht : truthyOpt ((get_field (splitlines s) kFilename).map Prod.snd) with
  | false => simp [ht]
  | true =>
      simp only [ht, not_true_eq_false, if_false, Bool.true_and]
      cases he : onlyExcludes only
        (basename (((get_field (splitlines s) kFilename).map Prod.snd).getD [])) with
      | true => simp [he]
      | false =>
          simp only [he, if_false, Bool.not_false, Bool.true_and]
          rcases hr : resolveArtifact fs
            (basename (((get_field (splitlines s) kFilename).map Prod.snd).getD [])) with
            _ | ⟨a, f⟩ <;> simp [hr]

/-- A planner iteration stamps the plan with the index it was given. -/
theorem planOf_stanza_index (fs : DebsDir) (icons : Option (List Str)) (ipfx : Option Str)
    (only : Option (List Str)) (fm ai : Bool) (i : Nat) (s : Str) (p : UpdatePlan)
    (h : planOf fs icons ipfx only fm ai i s = some p) : p.stanza_index = i := by
  by_cases ht : truthyOpt ((get_field (splitlines s) kFilename).map Prod.snd) = true
  case neg => simp [planOf, ht] at h
  by_cases he : onlyExcludes only
      (basename (((get_field (splitlines s) kFilename).map Prod.snd).getD [])) = true
  case pos => simp [planOf, ht, he] at h
  rcases hr : resolveArtifact fs
      (basename (((get_field (splitlines s) kFilename).map Prod.snd).getD [])) with _ | ⟨a, f⟩
  · simp [planOf, ht, he, hr] at h
  · simp only [planOf, ht, he, hr, not_true_eq_false, if_false, Bool.false_eq_true,
      Option.some_inj] at h
    rw [← h]

/-- Every plan in the planner output comes from the iteration on some
listed stanza, at the right shifted index. -/
theorem mem_buildPlansAux (fs : DebsDir) (icons : Option (List Str)) (ipfx : Option Str)
    (only : Option (List Str)) (fm ai : Bool) (i0 : Nat) (ss : List Str) (p : UpdatePlan)
    (hp : p ∈ buildPlansAux fs icons ipfx only fm ai i0 ss) :
    ∃ j s, ss[j]? = some s ∧ planOf fs icons ipfx only fm ai (i0 + j) s = some p := by
  induction ss generalizing i0 with
  | nil => simp [buildPlansAux] at hp
  | cons s rest ih =>
      rw [buildPlansAux] at hp
      rcases hpo : planOf fs icons ipfx only fm ai i0 s with _ | q
      · rw [hpo] at hp
        simp only [] at hp
        obtain ⟨j, s2, hj, hpl⟩ := ih (i0 + 1) hp
        exact ⟨j + 1, s2, by simpa using hj, by rw [show i0 + (j + 1) = i0 + 1 + j by omega]; exact hpl⟩
      · rw [hpo] at hp
        simp only [List.mem_cons] at hp
        rcases hp with rfl | hp
        · exact ⟨0, s, by simp, by simpa using hpo⟩
        · obtain ⟨j, s2, hj, hpl⟩ := ih (i0 + 1) hp
          exact ⟨j + 1, s2, by simpa using hj,
            by rw [show i0 + (j + 1) = i0 + 1 + j by omega]; exact hpl⟩

/-- The planner output has one plan per stanza meeting the planned
condition. -/
theorem buildPlansAux_length (fs : DebsDir) (icons : Option (List Str)) (ipfx : Option Str)
    (only : Option (List Str)) (fm ai : Bool) (i0 : Nat) (ss : List Str) :
    (buildPlansAux fs icons ipfx only fm ai i0 ss).length =
      ss.countP (stanzaPlanned fs only) := by
  induction ss generalizing i0 with
  | nil => rfl
  | cons s rest ih =>
      rw [buildPlansAux, List.countP_cons]
      have hiso := planOf_isSome fs icons ipfx only fm ai i0 s
      rcases hpo : planOf fs icons ipfx only fm ai i0 s with _ | q
      · rw [hpo] at hiso
        simp only [Option.isSome_none] at hiso
        rw [← hiso]
        simp only []
        rw [ih (i0 + 1)]
        rfl
      · rw [hpo] at hiso
        simp only [Option.isSome_some] at hiso
        rw [← hiso]
        simp only [List.length_cons]
        rw [ih (i0 + 1)]
        simp

/-- apply_plans never changes the number of stanzas. -/
theorem apply_plans_length (stanzas : List Str) (plans : List UpdatePlan) :
    (apply_plans stanzas plans).length = stanzas.length := by
  unfold apply_plans
  induction plans generalizing stanzas with
  | nil => rfl
  | cons p ps ih =>
      rw [List.foldl_cons, ih, List.length_set]

/-- apply_plans leaves every index no plan names untouched. -/
theorem apply_plans_getElem_other (stanzas : List Str) (plans : List UpdatePlan) (i : Nat)
    (h : ∀ p ∈ plans, p.stanza_index ≠ i) :
    (apply_plans stanzas plans)[i]? = stanzas[i]? := by
  unfold apply_plans
  induction plans generalizing stanzas with
  | nil => rfl
  | cons p ps ih =>
      rw [List.foldl_cons]
      rw [ih _ (fun q hq => h q (List.mem_cons_of_mem p hq))]
      exact List.getElem?_set_ne (h p (List.mem_cons_self p ps))

/-- With no allow-list, the planned condition is exactly having a
resolvable artifact. -/
theorem stanzaPlanned_none (fs : DebsDir) (s : Str) :
    stanzaPlanned fs none s = stanzaHasArtifact fs s := by
  unfold stanzaPlanned stanzaHasArtifact onlyExcludes
  simp

/-- The planned condition implies having a resolvable artifact. -/
theorem stanzaPlanned_imp (fs : DebsDir) (only : Option (List Str)) (s : Str)
    (h : stanzaPlanned fs only s = true) : stanzaHasArtifact fs s = true := by
  unfold stanzaPlanned at h
  unfold stanzaHasArtifact
  simp only [Bool.and_eq_true] at h ⊢
  exact ⟨h.1.1, h.2⟩

/-- C2: for an index of N stanzas of which exactly M have a Filename
field resolving (exactly or fuzzily) to an on-disk artifact, the
planner returns exactly M plans with no allow-list and at most M plans
under any allow-list, and the stanza list apply_plans returns always
has exactly N elements. -/
theorem C2_plan_count (fs : DebsDir) (stanzas : List Str)
    (fm ai : Bool) (icons : Option (List Str)) (ipfx : Option Str) :
    (build_update_plans fs stanzas none fm ai icons ipfx).length =
      stanzas.countP (stanzaHasArtifact fs) ∧
    (∀ only : Option (List Str),
      (build_update_plans fs stanzas only fm ai icons ipfx).length ≤
        stanzas.countP (stanzaHasArtifact fs)) ∧
    (∀ plans : List UpdatePlan, (apply_plans stanzas plans).length = stanzas.length) := by
  refine ⟨?_, ?_, fun plans => apply_plans_length stanzas plans⟩
  · rw [build_update_plans, buildPlansAux_length]
    exact List.countP_congr (fun s _ => by rw [stanzaPlanned_none])
  · intro only
    rw [build_update_plans, buildPlansAux_length]
    exact List.countP_mono_left (fun s _ => stanzaPlanned_imp fs only s)

/-- C3: a stanza for which no plan is produced (no truthy Filename
field, excluded by the allow-list, or artifact not resolvable) comes
out of apply_plans byte-identical at its index. -/
theorem C3_skipped_stanza_unchanged (fs : DebsDir) (stanzas : List Str)
    (only : Option (List Str)) (fm ai : Bool) (icons : Option (List Str)) (ipfx : Option Str)
    (i : Nat) (s : Str) (hs : stanzas[i]? = some s)
    (hskip : truthyOpt ((get_field (splitlines s) kFilename).map Prod.snd) = false ∨
      onlyExcludes only
        (basename (((get_field (splitlines s) kFilename).map Prod.snd).getD [])) = true ∨
      resolveArtifact fs
        (basename (((get_field (splitlines s) kFilename).map Prod.snd).getD [])) = none) :
    (apply_plans stanzas (build_update_plans fs stanzas only fm ai icons ipfx))[i]? =
      some s := by
  have hplanned : stanzaPlanned fs only s = false := by
    unfold stanzaPlanned
    rcases hskip with h | h | h <;> simp [h]
  rw [apply_plans_getElem_other _ _ i ?_, hs]
  intro p hp heq
  obtain ⟨j, s2, hj, hpl⟩ :=
    mem_buildPlansAux fs icons ipfx only fm ai 0 stanzas p hp
  have hidx := planOf_stanza_index fs icons ipfx only fm ai (0 + j) s2 p hpl
  have hj2 : j = i := by omega
  subst hj2
  rw [hs, Option.some_inj] at hj
  subst hj
  have hiso := planOf_isSome fs icons ipfx only fm ai (0 + j) s
  rw [hpl] at hiso
  rw [hplanned] at hiso
  exact absurd hiso (by simp)

/-- Witness for C3: a stanza with no Filename field is untouched. -/
theorem C3_skipped_stanza_witness :
    (apply_plans ["Name: x".toList]
      (build_update_plans ⟨["a.deb".toList], fun _ => ⟨1, [], [], []⟩⟩
        ["Name: x".toList] none true false none none))[0]? = some "Name: x".toList := by
  exact C3_skipped_stanza_unchanged ⟨["a.deb".toList], fun _ => ⟨1, [], [], []⟩⟩
    ["Name: x".toList] none true false none none 0 "Name: x".toList (by simp)
    (Or.inl (by decide))

/-! ## The lexicographic order on candidate names (C5) -/

/-- Characters with equal code points are equal. -/
theorem char_toNat_inj (c d : Char) (h : c.toNat = d.toNat) : c = d := by
  rw [← Char.ofNat_toNat c, h, Char.ofNat_toNat]

/-- strLe is reflexive. -/
theorem strLe_refl (a : Str) : strLe a a = true := by
  induction a with
  | nil => rfl
  | cons c t ih => simp [strLe, ih]

/-- strLe is total. -/
theorem strLe_total_bool (a b : Str) : strLe a b = true ∨ strLe b a = true := by
  induction a generalizing b with
  | nil => left; rfl
  | cons c t ih =>
      cases b with
      | nil => right; rfl
      | cons d u =>
          by_cases h1 : c.toNat < d.toNat
          · left; simp [strLe, h1]
          by_cases h2 : d.toNat < c.toNat
          · right; simp [strLe, h2]
          rcases ih u with h | h
          · left; simp [strLe, h1, h2, h]
          · right; simp [strLe, h1, h2, h]

/-- strLe is transitive. -/
theorem strLe_trans_bool (a b c : Str) (h1 : strLe a b = true) (h2 : strLe b c = true) :
    strLe a c = true := by
  induction a generalizing b c with
  | nil => rfl
  | cons x t ih =>
      cases b with
      | nil => simp [strLe] at h1
      | cons y u =>
          cases c with
          | nil => simp [strLe] at h2
          | cons z v =>
              simp only [strLe] at h1 h2 ⊢
              by_cases hxy : x.toNat < y.toNat
              · by_cases hyz : y.toNat < z.toNat
                · rw [if_pos (by omega : x.toNat < z.toNat)]
                · by_cases hzy : z.toNat < y.toNat
                  · simp [hyz, hzy] at h2
                  · rw [if_pos (by omega : x.toNat < z.toNat)]
              · by_cases hyx : y.toNat < x.toNat
                · simp [hxy, hyx] at h1
                · by_cases hyz : y.toNat < z.toNat
                  · rw [if_pos (by omega : x.toNat < z.toNat)]
                  · by_cases hzy : z.toNat < y.toNat
                    · simp [hyz, hzy] at h2
                    · simp only [hxy, hyx, if_false] at h1
                      simp only [hyz, hzy, if_false] at h2
                      rw [if_neg (by omega : ¬ x.toNat < z.toNat),
                        if_neg (by omega : ¬ z.toNat < x.toNat)]
                      exact ih u v h1 h2

/-- strLe is antisymmetric. -/
theorem strLe_antisymm_bool (a b : Str) (h1 : strLe a b = true) (h2 : strLe b a = true) :
    a = b := by
  induction a generalizing b with
  | nil =>
      cases b with
      | nil => rfl
      | cons y u => simp [strLe] at h2
  | cons x t ih =>
      cases b with
      | nil => simp [strLe] at h1
      | cons y u =>
          simp only [strLe] at h1 h2
          by_cases hxy : x.toNat < y.toNat
          · simp [hxy, Nat.lt_asymm hxy] at h2
          · by_cases hyx : y.toNat < x.toNat
            · simp [hxy, hyx] at h1
            · simp only [hxy, hyx, if_false] at h1 h2
              have hx : x = y := char_toNat_inj x y (by omega)
              rw [hx, ih u h1 h2]

/-- sortStr is a permutation of its input. -/
theorem sortStr_perm (l : List Str) : List.Perm (sortStr l) l :=
  List.perm_insertionSort _ l

/-- sortStr sorts with respect to strLe. -/
theorem sortStr_sorted (l : List Str) :
    List.Sorted (fun a b => strLe a b = true) (sortStr l) := by
  haveI : IsTotal Str (fun a b => strLe a b = true) := ⟨strLe_total_bool⟩
  haveI : IsTrans Str (fun a b => strLe a b = true) := ⟨strLe_trans_bool⟩
  exact List.sorted_insertionSort _ l

/-- Sorting two permuted listings gives the same list: the sorted order
does not depend on the enumeration order. -/
theorem sortStr_eq_of_perm (l l' : List Str) (h : List.Perm l l') : sortStr l = sortStr l' := by
  haveI : IsAntisymm Str (fun a b => strLe a b = true) := ⟨strLe_antisymm_bool⟩
  exact List.eq_of_perm_of_sorted ((sortStr_perm l).trans (h.trans (sortStr_perm l').symm))
    (sortStr_sorted l) (sortStr_sorted l')

/-- The head of the sorted list is a least element of the original. -/
theorem sortStr_head_min (l : List Str) (m : Str) (hm : (sortStr l).head? = some m) :
    m ∈ l ∧ ∀ x ∈ l, strLe m x = true := by
  rcases hsl : sortStr l with _ | ⟨h0, t⟩
  · rw [hsl] at hm; simp at hm
  rw [hsl] at hm
  simp only [List.head?_cons, Option.some_inj] at hm
  have hperm := sortStr_perm l
  rw [hsl, hm] at hperm
  have hsorted := sortStr_sorted l
  rw [hsl, hm] at hsorted
  constructor
  · exact hperm.mem_iff.mp (List.mem_cons_self m t)
  · intro x hx
    have hx2 : x ∈ m :: t := hperm.mem_iff.mpr hx
    rcases List.mem_cons.mp hx2 with rfl | hx3
    · exact strLe_refl x
    · exact List.rel_of_sorted_cons hsorted x hx3

/-- Permuted directory listings resolve identically. -/
theorem resolveArtifact_perm (fs fs' : DebsDir) (deb_name : Str)
    (hperm : List.Perm fs'.entries fs.entries) :
    resolveArtifact fs' deb_name = resolveArtifact fs deb_name := by
  unfold resolveArtifact
  have hcont : fs'.entries.contains deb_name = fs.entries.contains deb_name := by
    cases hc : fs.entries.contains deb_name with
    | true =>
        rw [List.contains_iff_exists_mem_beq] at hc ⊢
        obtain ⟨x, hx, hbeq⟩ := hc
        exact ⟨x, hperm.mem_iff.mpr hx, hbeq⟩
    | false =>
        rw [Bool.eq_false_iff] at hc ⊢
        intro hcc
        apply hc
        rw [List.contains_iff_exists_mem_beq] at hcc ⊢
        obtain ⟨x, hx, hbeq⟩ := hcc
        exact ⟨x, hperm.mem_iff.mp hx, hbeq⟩
  rw [hcont]
  have hglob : glob_deb_candidates fs' (deb_name.take (deb_name.length - 4)) =
      glob_deb_candidates fs (deb_name.take (deb_name.length - 4)) := by
    unfold glob_deb_candidates
    exact sortStr_eq_of_perm _ _
      (hperm.filter (fun n => globStemDeb (deb_name.take (deb_name.length - 4)) n))
  rw [hglob]

/-- C5: when the exact declared basename is absent but the fuzzy
pattern has candidates, the resolver picks the lexicographically least
candidate, records the filename correction pointing at it under the
artifact directory, and the outcome is independent of the enumeration
order of the directory. -/
theorem C5_fuzzy_resolution (fs : DebsDir) (deb_name : Str)
    (hnot : fs.entries.contains deb_name = false)
    (hdeb : dotDeb.isSuffixOf deb_name = true)
    (hcand : fs.entries.filter (globStemDeb (deb_name.take (deb_name.length - 4))) ≠ []) :
    (∃ m, resolveArtifact fs deb_name = some (m, some (debsDirDot ++ m)) ∧
      m ∈ fs.entries.filter (globStemDeb (deb_name.take (deb_name.length - 4))) ∧
      ∀ x ∈ fs.entries.filter (globStemDeb (deb_name.take (deb_name.length - 4))),
        strLe m x = true) ∧
    (∀ fs' : DebsDir, List.Perm fs'.entries fs.entries →
      resolveArtifact fs' deb_name = resolveArtifact fs deb_name) := by
  refine ⟨?_, fun fs' hp => resolveArtifact_perm fs fs' deb_name hp⟩
  have hsne : sortStr (fs.entries.filter (globStemDeb (deb_name.take (deb_name.length - 4)))) ≠ [] := by
    intro hnil
    have := (sortStr_perm (fs.entries.filter
      (globStemDeb (deb_name.take (deb_name.length - 4))))).length_eq
    rw [hnil] at this
    exact hcand (List.length_eq_zero.mp this.symm)
  rcases hsl : sortStr (fs.entries.filter (globStemDeb (deb_name.take (deb_name.length - 4))))
    with _ | ⟨m, t⟩
  · exact absurd hsl hsne
  have hmin := sortStr_head_min
    (fs.entries.filter (globStemDeb (deb_name.take (deb_name.length - 4)))) m
    (by rw [hsl]; rfl)
  refine ⟨m, ?_, hmin.1, hmin.2⟩
  unfold resolveArtifact
  rw [if_neg (fun hcc => by rw [hnot] at hcc; exact absurd hcc (by simp)), if_pos hdeb]
  unfold glob_deb_candidates
  rw [hsl]

/-- Witness for C5: among two candidates listed in reverse order, the
lexicographically first is chosen. -/
theorem C5_fuzzy_resolution_witness :
    ∃ m, resolveArtifact ⟨["stem.b.deb".toList, "stem.a.deb".toList], fun _ => ⟨1, [], [], []⟩⟩
        "stem.deb".toList = some (m, some (debsDirDot ++ m)) ∧
      m ∈ (["stem.b.deb".toList, "stem.a.deb".toList].filter
        (globStemDeb ("stem.deb".toList.take ("stem.deb".toList.length - 4)))) ∧
      ∀ x ∈ (["stem.b.deb".toList, "stem.a.deb".toList].filter
        (globStemDeb ("stem.deb".toList.take ("stem.deb".toList.length - 4)))),
        strLe m x = true := by
  exact (C5_fuzzy_resolution ⟨["stem.b.deb".toList, "stem.a.deb".toList], fun _ => ⟨1, [], [], []⟩⟩
    "stem.deb".toList (by decide) (by decide) (by decide)).1

/-! ## The recorded filename correction (C8) -/

/-- The resolver either records no filename correction (exact match) or
records exactly the dot-slash-debs-slash path of the resolved name. -/
theorem resolveArtifact_shape (fs : DebsDir) (dn a : Str) (f : Option Str)
    (h : resolveArtifact fs dn = some (a, f)) :
    f = none ∨ f = some (debsDirDot ++ a) := by
  unfold resolveArtifact at h
  by_cases h1 : fs.entries.contains dn = true
  · rw [if_pos h1] at h
    simp only [Option.some_inj, Prod.mk.injEq] at h
    left
    exact h.2.symm
  · rw [if_neg h1] at h
    by_cases h2 : dotDeb.isSuffixOf dn = true
    · rw [if_pos h2] at h
      rcases hg : glob_deb_candidates fs (dn.take (dn.length - 4)) with _ | ⟨c, rest⟩
      · rw [hg] at h
        exact absurd h (by simp)
      · rw [hg] at h
        simp only [Option.some_inj, Prod.mk.injEq] at h
        right
        rw [← h.1, ← h.2]
    · rw [if_neg h2] at h
      exact absurd h (by simp)

/-- Every plan the planner emits records either no filename correction
or the dot-slash-debs-slash path of its resolved filename. -/
theorem planOf_fix_filename (fs : DebsDir) (icons : Option (List Str)) (ipfx : Option Str)
    (only : Option (List Str)) (fm ai : Bool) (i : Nat) (s : Str) (p : UpdatePlan)
    (h : planOf fs icons ipfx only fm ai i s = some p) :
    p.fix_filename = none ∨ p.fix_filename = some (debsDirDot ++ p.filename) := by
  by_cases ht : truthyOpt ((get_field (splitlines s) kFilename).map Prod.snd) = true
  case neg => simp [planOf, ht] at h
  by_cases he : onlyExcludes only
      (basename (((get_field (splitlines s) kFilename).map Prod.snd).getD [])) = true
  case pos => simp [planOf, ht, he] at h
  rcases hr : resolveArtifact fs
      (basename (((get_field (splitlines s) kFilename).map Prod.snd).getD [])) with _ | ⟨a, f⟩
  · simp [planOf, ht, he, hr] at h
  · have hshape := resolveArtifact_shape fs _ a f hr
    simp only [planOf, ht, he, hr, not_true_eq_false, if_false, Bool.false_eq_true,
      Option.some_inj] at h
    rw [← h]
    exact hshape

/-- C8 (amended): the corrected Filename value recorded for a fuzzily
matched stanza is the dot-slash-debs-slash path of the resolved
candidate, so it DOES carry a leading dot-slash prefix. -/
theorem C8_fix_filename_amended (fs : DebsDir) (stanzas : List Str)
    (only : Option (List Str)) (fm ai : Bool) (icons : Option (List Str)) (ipfx : Option Str)
    (p : UpdatePlan) (hp : p ∈ build_update_plans fs stanzas only fm ai icons ipfx)
    (f : Str) (hf : p.fix_filename = some f) :
    f = debsDirDot ++ p.filename ∧ f.take 2 = "./".toList := by
  obtain ⟨j, s, _, hpl⟩ := mem_buildPlansAux fs icons ipfx only fm ai 0 stanzas p hp
  rcases planOf_fix_filename fs icons ipfx only fm ai (0 + j) s p hpl with h | h
  · rw [h] at hf
    exact absurd hf (by simp)
  · rw [h, Option.some_inj] at hf
    subst hf
    exact ⟨rfl, rfl⟩

/-- Witness for the amended C8 at a concrete fuzzily matched stanza. -/
theorem C8_fix_filename_witness :
    ∃ p ∈ build_update_plans ⟨["pkg.extra.deb".toList], fun _ => ⟨1, [], [], []⟩⟩
        ["Filename: pkg.deb".toList] none false false none none,
      p.fix_filename = some ("./debs/pkg.extra.deb".toList) ∧
        "./debs/pkg.extra.deb".toList = debsDirDot ++ p.filename ∧
        ("./debs/pkg.extra.deb".toList).take 2 = "./".toList := by
  have hmem : ∃ p ∈ build_update_plans ⟨["pkg.extra.deb".toList], fun _ => ⟨1, [], [], []⟩⟩
      ["Filename: pkg.deb".toList] none false false none none,
      p.fix_filename = some ("./debs/pkg.extra.deb".toList) := by decide
  obtain ⟨p, hp, hfix⟩ := hmem
  exact ⟨p, hp, hfix,
    C8_fix_filename_amended _ _ none false false none none p hp _ hfix⟩

/-- Counterexample to C8 as stated: a concrete run in which the
corrected Filename value recorded for a fuzzily matched stanza, and the
Filename value written into the stanza by the applier, both begin with
a dot-slash prefix. -/
theorem C8_counterexample :
    (∃ p ∈ build_update_plans ⟨["pkg.extra.deb".toList], fun _ => ⟨1, [], [], []⟩⟩
        ["Filename: pkg.deb".toList] none false false none none,
      p.fix_filename = some ("./debs/pkg.extra.deb".toList) ∧
        ("./".toList <+: "./debs/pkg.extra.deb".toList)) ∧
    getVal (splitlines ((apply_plans ["Filename: pkg.deb".toList]
        (build_update_plans ⟨["pkg.extra.deb".toList], fun _ => ⟨1, [], [], []⟩⟩
          ["Filename: pkg.deb".toList] none false false none none)).getD 0 []))
      kFilename = some ("./debs/pkg.extra.deb".toList) := by
  constructor
  · decide
  · decide

/-! ## The metadata reconciler (C6) -/

/-- The reconciler of a metadata-fixing plan records exactly the
corrections for derived fields that differ from the current stanza
fields. -/
theorem planOf_metadata (fs : DebsDir) (icons : Option (List Str)) (ipfx : Option Str)
    (only : Option (List Str)) (ai : Bool) (i : Nat) (s : Str) (p : UpdatePlan)
    (h : planOf fs icons ipfx only true ai i s = some p)
    (pkg ver arch : Str)
    (hparse : parse_deb_filename p.filename = some (pkg, ver, arch)) :
    p.fix_pkg = (if getVal (splitlines s) kPackage = some pkg then none else some pkg) ∧
    p.fix_ver = (if getVal (splitlines s) kVersion = some ver then none else some ver) ∧
    p.fix_arch = (if getVal (splitlines s) kArchitecture = some arch then none else some arch) := by
  by_cases ht : truthyOpt ((get_field (splitlines s) kFilename).map Prod.snd) = true
  case neg => simp [planOf, ht] at h
  by_cases he : onlyExcludes only
      (basename (((get_field (splitlines s) kFilename).map Prod.snd).getD [])) = true
  case pos => simp [planOf, ht, he] at h
  rcases hr : resolveArtifact fs
      (basename (((get_field (splitlines s) kFilename).map Prod.snd).getD [])) with _ | ⟨a, f⟩
  · simp [planOf, ht, he, hr] at h
  rcases hpd : parse_deb_filename a with _ | ⟨pk, vr, ar⟩
  · simp only [planOf, ht, he, hr, hpd, not_true_eq_false, if_false, Bool.false_eq_true,
      if_true, Option.some_inj] at h
    rw [← h] at hparse
    simp only [] at hparse
    rw [hpd] at hparse
    exact absurd hparse (by simp)
  · simp only [planOf, ht, he, hr, hpd, not_true_eq_false, if_false, Bool.false_eq_true,
      if_true, Option.some_inj] at h
    have hfile : p.filename = a := by rw [← h]
    rw [hfile, hpd, Option.some_inj] at hparse
    obtain ⟨hpk, hvr, har⟩ : pk = pkg ∧ vr = ver ∧ ar = arch := by
      refine ⟨?_, ?_, ?_⟩ <;> [exact congrArg Prod.fst hparse;
        exact congrArg (fun t => t.2.1) hparse;
        exact congrArg (fun t => t.2.2) hparse]
    subst hpk
    subst hvr
    subst har
    refine ⟨?_, ?_, ?_⟩
    · have : p.fix_pkg =
          (if (get_field (splitlines s) kPackage).map Prod.snd ≠ some pk then some pk
           else none) := by rw [← h]
      rw [this]
      unfold getVal get_field
      by_cases hc : (getFieldAux kPackage (splitlines s) 0).map Prod.snd = some pk <;>
        simp [hc]
    · have : p.fix_ver =
          (if (get_field (splitlines s) kVersion).map Prod.snd ≠ some vr then some vr
           else none) := by rw [← h]
      rw [this]
      unfold getVal get_field
      by_cases hc : (getFieldAux kVersion (splitlines s) 0).map Prod.snd = some vr <;>
        simp [hc]
    · have : p.fix_arch =
          (if (get_field (splitlines s) kArchitecture).map Prod.snd ≠ some ar then some ar
           else none) := by rw [← h]
      rw [this]
      unfold getVal get_field
      by_cases hc : (getFieldAux kArchitecture (splitlines s) 0).map Prod.snd = some ar <;>
        simp [hc]

/-- The applier preserves the Package value when the plan carries no
truthy Package correction. -/
theorem applyPlan_pres_pkg (lines : List Str) (p : UpdatePlan)
    (hfix : p.fix_pkg = some [] ∨ p.fix_pkg = none) :
    getVal (applyPlanLines lines p) kPackage = getVal lines kPackage := by
  exact applyPlan_getVal_pres lines p kPackage ⟨by decide, by decide⟩ (by decide)
    (fun rest => mf_mismatch2 _ _ rest 'P' 'S' (by decide) (by decide) (by decide) (by decide))
    (fun rest => mf_mismatch2 _ _ rest 'P' 'M' (by decide) (by decide) (by decide) (by decide))
    (fun rest => mf_mismatch2 _ _ rest 'P' 'S' (by decide) (by decide) (by decide) (by decide))
    (fun rest => mf_mismatch2 _ _ rest 'P' 'S' (by decide) (by decide) (by decide) (by decide))
    (stepOK_of_empty _ _ _ hfix)
    (fun v hv hvne => ⟨⟨by decide, by decide⟩, by decide,
      fun rest => mf_mismatch2 _ _ rest 'P' 'V' (by decide) (by decide) (by decide) (by decide)⟩)
    (fun v hv hvne => ⟨⟨by decide, by decide⟩, by decide,
      fun rest => mf_mismatch2 _ _ rest 'P' 'A' (by decide) (by decide) (by decide) (by decide)⟩)
    (fun v hv hvne => ⟨⟨by decide, by decide⟩, by decide,
      fun rest => mf_mismatch2 _ _ rest 'P' 'F' (by decide) (by decide) (by decide) (by decide)⟩)
    (fun v hv hvne => ⟨⟨by decide, by decide⟩, by decide,
      fun rest => mf_mismatch2 _ _ rest 'P' 'I' (by decide) (by decide) (by decide) (by decide)⟩)

/-- The applier preserves the Version value when the plan carries no
truthy Version correction. -/
theorem applyPlan_pres_ver (lines : List Str) (p : UpdatePlan)
    (hfix : p.fix_ver = some [] ∨ p.fix_ver = none) :
    getVal (applyPlanLines lines p) kVersion = getVal lines kVersion := by
  exact applyPlan_getVal_pres lines p kVersion ⟨by decide, by decide⟩ (by decide)
    (fun rest => mf_mismatch2 _ _ rest 'V' 'S' (by decide) (by decide) (by decide) (by decide))
    (fun rest => mf_mismatch2 _ _ rest 'V' 'M' (by decide) (by decide) (by decide) (by decide))
    (fun rest => mf_mismatch2 _ _ rest 'V' 'S' (by decide) (by decide) (by decide) (by decide))
    (fun rest => mf_mismatch2 _ _ rest 'V' 'S' (by decide) (by decide) (by decide) (by decide))
    (fun v hv hvne => ⟨⟨by decide, by decide⟩, by decide,
      fun rest => mf_mismatch2 _ _ rest 'V' 'P' (by decide) (by decide) (by decide) (by decide)⟩)
    (stepOK_of_empty _ _ _ hfix)
    (fun v hv hvne => ⟨⟨by decide, by decide⟩, by decide,
      fun rest => mf_mismatch2 _ _ rest 'V' 'A' (by decide) (by decide) (by decide) (by decide)⟩)
    (fun v hv hvne => ⟨⟨by decide, by decide⟩, by decide,
      fun rest => mf_mismatch2 _ _ rest 'V' 'F' (by decide) (by decide) (by decide) (by decide)⟩)
    (fun v hv hvne => ⟨⟨by decide, by decide⟩, by decide,
      fun rest => mf_mismatch2 _ _ rest 'V' 'I' (by decide) (by decide) (by decide) (by decide)⟩)

/-- The applier preserves the Architecture value when the plan carries
no truthy Architecture correction. -/
theorem applyPlan_pres_arch (lines : List Str) (p : UpdatePlan)
    (hfix : p.fix_arch = some [] ∨ p.fix_arch = none) :
    getVal (applyPlanLines lines p) kArchitecture = getVal lines kArchitecture := by
  exact applyPlan_getVal_pres lines p kArchitecture ⟨by decide, by decide⟩ (by decide)
    (fun rest => mf_mismatch2 _ _ rest 'A' 'S' (by decide) (by decide) (by decide) (by decide))
    (fun rest => mf_mismatch2 _ _ rest 'A' 'M' (by decide) (by decide) (by decide) (by decide))
    (fun rest => mf_mismatch2 _ _ rest 'A' 'S' (by decide) (by decide) (by decide) (by decide))
    (fun rest => mf_mismatch2 _ _ rest 'A' 'S' (by decide) (by decide) (by decide) (by decide))
    (fun v hv hvne => ⟨⟨by decide, by decide⟩, by decide,
      fun rest => mf_mismatch2 _ _ rest 'A' 'P' (by decide) (by decide) (by decide) (by decide)⟩)
    (fun v hv hvne => ⟨⟨by decide, by decide⟩, by decide,
      fun rest => mf_mismatch2 _ _ rest 'A' 'V' (by decide) (by decide) (by decide) (by decide)⟩)
    (stepOK_of_empty _ _ _ hfix)
    (fun v hv hvne => ⟨⟨by decide, by decide⟩, by decide,
      fun rest => mf_mismatch2 _ _ rest 'A' 'F' (by decide) (by decide) (by decide) (by decide)⟩)
    (fun v hv hvne => ⟨⟨by decide, by decide⟩, by decide,
      fun rest => mf_mismatch2 _ _ rest 'A' 'I' (by decide) (by decide) (by decide) (by decide)⟩)

/-- C6: with metadata-fixing enabled and a parseable artifact filename,
the plan records a Package, Version or Architecture correction exactly
for the fields whose derived value differs from the current field
value; a field already equal to its derived value gets no correction
and keeps its value through the applier. -/
theorem C6_metadata_reconciler (fs : DebsDir) (stanzas : List Str)
    (only : Option (List Str)) (ai : Bool) (icons : Option (List Str)) (ipfx : Option Str)
    (p : UpdatePlan) (hp : p ∈ build_update_plans fs stanzas only true ai icons ipfx)
    (s : Str) (hs : stanzas[p.stanza_index]? = some s)
    (pkg ver arch : Str) (hparse : parse_deb_filename p.filename = some (pkg, ver, arch)) :
    (p.fix_pkg = (if getVal (splitlines s) kPackage = some pkg then none else some pkg)) ∧
    (p.fix_ver = (if getVal (splitlines s) kVersion = some ver then none else some ver)) ∧
    (p.fix_arch =
      (if getVal (splitlines s) kArchitecture = some arch then none else some arch)) ∧
    (getVal (splitlines s) kPackage = some pkg →
      getVal (applyPlanLines (splitlines s) p) kPackage = some pkg) ∧
    (getVal (splitlines s) kVersion = some ver →
      getVal (applyPlanLines (splitlines s) p) kVersion = some ver) ∧
    (getVal (splitlines s) kArchitecture = some arch →
      getVal (applyPlanLines (splitlines s) p) kArchitecture = some arch) := by
  obtain ⟨j, s2, hj, hpl⟩ := mem_buildPlansAux fs icons ipfx only true ai 0 stanzas p hp
  have hidx := planOf_stanza_index fs icons ipfx only true ai (0 + j) s2 p hpl
  have hs2 : s2 = s := by
    rw [hidx] at hs
    simp only [Nat.zero_add] at hs
    rw [hj, Option.some_inj] at hs
    exact hs
  subst hs2
  obtain ⟨e1, e2, e3⟩ := planOf_metadata fs icons ipfx only ai (0 + j) s2 p hpl pkg ver arch hparse
  refine ⟨e1, e2, e3, fun hc => ?_, fun hc => ?_, fun hc => ?_⟩
  · rw [applyPlan_pres_pkg _ p (Or.inr (by rw [e1, if_pos hc])), hc]
  · rw [applyPlan_pres_ver _ p (Or.inr (by rw [e2, if_pos hc])), hc]
  · rw [applyPlan_pres_arch _ p (Or.inr (by rw [e3, if_pos hc])), hc]

/-- Witness for C6: a stanza whose Package already equals the derived
package id gets no Package correction and keeps its value, while the
differing Version is corrected. -/
theorem C6_metadata_reconciler_witness :
    ∃ p ∈ build_update_plans ⟨["a_1.0_arm.deb".toList], fun _ => ⟨1, [], [], []⟩⟩
        ["Package: a\r\nVersion: 9\r\nFilename: a_1.0_arm.deb".toList] none true false none none,
      p.fix_pkg = none ∧ p.fix_ver = some "1.0".toList ∧
        getVal (applyPlanLines
          (splitlines "Package: a\r\nVersion: 9\r\nFilename: a_1.0_arm.deb".toList) p)
          kPackage = some "a".toList := by
  have hmem : ∃ p ∈ build_update_plans ⟨["a_1.0_arm.deb".toList], fun _ => ⟨1, [], [], []⟩⟩
      ["Package: a\r\nVersion: 9\r\nFilename: a_1.0_arm.deb".toList] none true false none none,
      p.stanza_index = 0 ∧ p.filename = "a_1.0_arm.deb".toList ∧
      p.fix_pkg = none ∧ p.fix_ver = some "1.0".toList := by decide
  obtain ⟨p, hp, hidx, hfile, hfixp, hfixv⟩ := hmem
  have := C6_metadata_reconciler ⟨["a_1.0_arm.deb".toList], fun _ => ⟨1, [], [], []⟩⟩
    ["Package: a\r\nVersion: 9\r\nFilename: a_1.0_arm.deb".toList] none false none none p hp
    "Package: a\r\nVersion: 9\r\nFilename: a_1.0_arm.deb".toList
    (by rw [hidx]; rfl)
    "a".toList "1.0".toList "arm".toList (by rw [hfile]; decide)
  exact ⟨p, hp, hfixp, hfixv, this.2.2.2.1 (by decide)⟩

/-! ## The stanza round trip (C1) -/

/-- consumeBreaks on a CR LF pair. -/
theorem cb_crlf (rest : List Char) :
    consumeBreaks ('\r' :: '\n' :: rest) =
      ((consumeBreaks rest).1 + 1, (consumeBreaks rest).2) := rfl

/-- consumeBreaks on a lone LF. -/
theorem cb_lf (rest : List Char) :
    consumeBreaks ('\n' :: rest) =
      ((consumeBreaks rest).1 + 1, (consumeBreaks rest).2) := rfl

/-- consumeBreaks on text that does not start with a break. -/
theorem cb_not_break (l : List Char) (h : startsBreak l = false) :
    consumeBreaks l = (0, l) := by
  rw [consumeBreaks.eq_def]
  split
  · simp [startsBreak] at h
  · simp [startsBreak] at h
  · rfl

/-- A text led by anything but LF or CR does not start with a break. -/
theorem startsBreak_cons (c : Char) (rest : List Char) (h1 : c ≠ '\n') (h2 : c ≠ '\r') :
    startsBreak (c :: rest) = false := by
  rw [startsBreak.eq_def]
  split <;> simp_all

/-- A break run that stops inside the text (before its last character,
which is no break character) is unchanged by appending more text. -/
theorem cb_append (l t : List Char) (hne : l ≠ [])
    (hlast : l.getLast? ≠ some '\r' ∧ l.getLast? ≠ some '\n') :
    consumeBreaks (l ++ t) = ((consumeBreaks l).1, (consumeBreaks l).2 ++ t) := by
  induction l using consumeBreaks.induct with
  | case1 rest ih =>
      have hrne : rest ≠ [] := by
        intro hnil
        subst hnil
        exact hlast.2 rfl
      have hlast2 : rest.getLast? ≠ some '\r' ∧ rest.getLast? ≠ some '\n' := by
        rcases rest with _ | ⟨d, r2⟩
        · exact absurd rfl hrne
        · constructor <;> intro hcon <;>
            [exact hlast.1 (by rw [List.getLast?_cons_cons, List.getLast?_cons_cons]; exact hcon);
             exact hlast.2 (by rw [List.getLast?_cons_cons, List.getLast?_cons_cons]; exact hcon)]
      rw [List.cons_append, List.cons_append, cb_crlf, cb_crlf, ih hrne hlast2]
  | case2 rest ih =>
      have hrne : rest ≠ [] := by
        intro hnil
        subst hnil
        exact hlast.2 rfl
      have hlast2 : rest.getLast? ≠ some '\r' ∧ rest.getLast? ≠ some '\n' := by
        rcases rest with _ | ⟨d, r2⟩
        · exact absurd rfl hrne
        · constructor <;> intro hcon <;>
            [exact hlast.1 (by rw [List.getLast?_cons_cons]; exact hcon);
             exact hlast.2 (by rw [List.getLast?_cons_cons]; exact hcon)]
      rw [List.cons_append, cb_lf, cb_lf, ih hrne hlast2]
  | case3 l h1 h2 =>
      have hsb : startsBreak l = false := by
        rw [startsBreak.eq_def]
        split
        · rename_i tail
          exact absurd rfl (h2 tail)
        · rename_i tail
          exact absurd rfl (h1 tail)
        · rfl
      rcases l with _ | ⟨c, rest⟩
      · exact absurd rfl hne
      rw [cb_not_break _ hsb]
      apply cb_not_break
      by_cases hc : c = '\n'
      · subst hc
        simp [startsBreak] at hsb
      by_cases hcr : c = '\r'
      · subst hcr
        rcases rest with _ | ⟨d, rest2⟩
        · simp at hlast
        · by_cases hd : d = '\n'
          · subst hd
            simp [startsBreak] at hsb
          · rw [List.cons_append, List.cons_append, startsBreak.eq_def]
            split <;> simp_all
      · exact startsBreak_cons c _ hc hcr

/-- Unfolding noDoubleBreak at a cons. -/
theorem noDoubleBreak_cons (c : Char) (cs : List Char)
    (h : noDoubleBreak (c :: cs) = true) :
    (consumeBreaks (c :: cs)).1 ≤ 1 ∧ noDoubleBreak cs = true := by
  rw [noDoubleBreak] at h
  simp only [Bool.and_eq_true, decide_eq_true_eq] at h
  exact h

/-- Scanning text with no internal stanza separator and no trailing
break character just moves it into the accumulator. -/
theorem parseAux_scan (xs : List Char) (t : List Char) (acc : List Char)
    (hnd : noDoubleBreak xs = true)
    (hlast : xs.getLast? ≠ some '\r' ∧ xs.getLast? ≠ some '\n') :
    parseAux (xs ++ t) acc = parseAux t (xs.reverse ++ acc) := by
  induction xs generalizing acc with
  | nil => simp
  | cons c cs ih =>
      have hxsne : (c :: cs) ≠ [] := by simp
      obtain ⟨hcount, hndcs⟩ := noDoubleBreak_cons c cs hnd
      have hcb := cb_append (c :: cs) t hxsne hlast
      rw [parseAux, dif_neg (by rw [hcb]; omega)]
      show parseAux (cs ++ t) (c :: acc) = _
      have hlast2 : cs.getLast? ≠ some '\r' ∧ cs.getLast? ≠ some '\n' := by
        rcases cs with _ | ⟨d, r2⟩
        · simp
        · constructor <;> intro hcon <;>
            [exact hlast.1 (by rw [List.getLast?_cons_cons]; exact hcon);
             exact hlast.2 (by rw [List.getLast?_cons_cons]; exact hcon)]
      rw [ih (c :: acc) hndcs hlast2]
      simp

/-- The parser splits at a blank CRLF line followed by non-break
text. -/
theorem parseAux_sep (ys : List Char) (acc : List Char)
    (hys : startsBreak ys = false) :
    parseAux ('\r' :: '\n' :: '\r' :: '\n' :: ys) acc =
      acc.reverse :: parseAux ys [] := by
  have hcb : consumeBreaks ('\r' :: '\n' :: '\r' :: '\n' :: ys) = (2, ys) := by
    rw [cb_crlf, cb_crlf, cb_not_break ys hys]
  rw [parseAux]
  rw [dif_pos (by rw [hcb])]
  rw [hcb]

/-- The parser keeps a single trailing CRLF inside the last
fragment. -/
theorem parseAux_eol (acc : List Char) :
    parseAux ['\r', '\n'] acc = [acc.reverse ++ ['\r', '\n']] := by
  have h1 : consumeBreaks ['\r', '\n'] = (1, []) := rfl
  have h2 : consumeBreaks ['\n'] = (1, []) := rfl
  rw [parseAux, dif_neg (by rw [h1]; omega)]
  show parseAux ['\n'] ('\r' :: acc) = _
  rw [parseAux, dif_neg (by rw [h2]; omega)]
  show parseAux [] ('\n' :: '\r' :: acc) = _
  rw [parseAux, dif_neg (by simp [consumeBreaks])]
  show [('\n' :: '\r' :: acc).reverse] = _
  simp

/-- A list containing a non-whitespace character does not strip to
nothing. -/
theorem strip_ne_nil_of_mem (l : Str) (c : Char) (hc : c ∈ l) (hcs : isPySpace c = false) :
    strip l ≠ [] := by
  intro h
  rw [strip_eq_nil_iff] at h
  rw [h c hc] at hcs
  exact absurd hcs (by simp)

/-- The stripped text of a stanza ends in no break character. -/
theorem strip_getLast_not_break (s : Str) :
    (strip s).getLast? ≠ some '\r' ∧ (strip s).getLast? ≠ some '\n' := by
  constructor <;> intro hcon <;>
    [have := strip_getLast?_false s '\r' hcon; have := strip_getLast?_false s '\n' hcon] <;>
    exact absurd this (by decide)

/-- join_stanzas of a single stanza is its stripped text plus one
CRLF. -/
theorem join_single (s : Str) : join_stanzas [s] = strip s ++ EOL := rfl

/-- join_stanzas of at least two stanzas peels the first stripped
stanza and a blank CRLF line. -/
theorem join_cons2 (s r : Str) (rest : List Str) :
    join_stanzas (s :: r :: rest) =
      strip s ++ ('\r' :: '\n' :: '\r' :: '\n' :: join_stanzas (r :: rest)) := by
  show (strip s ++ (EOL ++ EOL) ++ joinSep (EOL ++ EOL) (strip r :: rest.map strip)) ++ EOL =
    strip s ++ ('\r' :: '\n' :: '\r' :: '\n' :: join_stanzas (r :: rest))
  rw [join_stanzas]
  simp [EOL, List.append_assoc]

/-- join_stanzas of non-blank stanzas starts with no break
character. -/
theorem join_head_not_break (S : List Str) (hne : S ≠ [])
    (hall : ∀ s ∈ S, strip s ≠ []) : startsBreak (join_stanzas S) = false := by
  cases S with
  | nil => exact absurd rfl hne
  | cons s rest =>
      have hs := hall s (List.mem_cons_self s rest)
      rcases hstrip : strip s with _ | ⟨c, t⟩
      · exact absurd hstrip hs
      have hc := strip_head?_false s c (by rw [hstrip]; rfl)
      have hcn : c ≠ '\n' := by intro hcon; rw [hcon] at hc; exact absurd hc (by decide)
      have hcr : c ≠ '\r' := by intro hcon; rw [hcon] at hc; exact absurd hc (by decide)
      cases rest with
      | nil =>
          rw [join_single, hstrip, List.cons_append]
          exact startsBreak_cons c _ hcn hcr
      | cons r rest2 =>
          rw [join_cons2, hstrip, List.cons_append]
          exact startsBreak_cons c _ hcn hcr

/-- The general round-trip equation: parsing the joined text of
non-blank, internally separator-free stanzas returns the stripped
stanzas, the last one carrying the trailing CRLF. -/
theorem parse_join (S : List Str) (hne : S ≠ [])
    (hall : ∀ s ∈ S, strip s ≠ [] ∧ noDoubleBreak (strip s) = true) :
    parse_stanzas (join_stanzas S) =
      S.dropLast.map strip ++ [strip (S.getLast hne) ++ EOL] := by
  induction S with
  | nil => exact absurd rfl hne
  | cons s rest ih =>
      have hs := hall s (List.mem_cons_self s rest)
      cases rest with
      | nil =>
          rw [join_single]
          unfold parse_stanzas
          have hEOL : EOL = ['\r', '\n'] := rfl
          have hscan := parseAux_scan (strip s) EOL [] hs.2 (strip_getLast_not_break s)
          rw [hscan, hEOL, parseAux_eol]
          simp only [List.append_nil, List.reverse_reverse]
          rw [List.filter_cons]
          have hfrag : strip (strip s ++ ['\r', '\n']) ≠ [] := by
            rcases hstrip : strip s with _ | ⟨c, t⟩
            · exact absurd hstrip hs.1
            · exact strip_ne_nil_of_mem _ c (by simp)
                (strip_head?_false s c (by rw [hstrip]; rfl))
          have hkeep : (!(strip (strip s ++ ['\r', '\n'])).isEmpty) = true := by
            cases hx : strip (strip s ++ ['\r', '\n']) with
            | nil => exact absurd hx hfrag
            | cons a b => rfl
          rw [if_pos hkeep, List.filter_nil]
          simp [hEOL]
      | cons r rest2 =>
          rw [join_cons2]
          unfold parse_stanzas
          rw [parseAux_scan (strip s) _ [] hs.2 (strip_getLast_not_break s),
            parseAux_sep _ _ (join_head_not_break (r :: rest2) (by simp)
              (fun x hx => (hall x (List.mem_cons_of_mem s hx)).1))]
          simp only [List.append_nil, List.reverse_reverse]
          rw [List.filter_cons]
          have hkeep : (!(strip (strip s)).isEmpty) = true := by
            rw [strip_idem]
            cases hx : strip s with
            | nil => exact absurd hx hs.1
            | cons a b => rfl
          rw [if_pos hkeep]
          have hrec := ih (by simp) (fun x hx => hall x (List.mem_cons_of_mem s hx))
          unfold parse_stanzas at hrec
          rw [hrec]
          have hdl : (s :: r :: rest2).dropLast = s :: (r :: rest2).dropLast := rfl
          have hgl : (s :: r :: rest2).getLast (by simp) = (r :: rest2).getLast (by simp) :=
            List.getLast_cons (by simp)
          rw [hdl, hgl]
          simp

/-- C1 (amended): for a non-empty list of stanzas, each non-blank after
stripping and containing no run of two or more line breaks once
stripped, parsing the joined text returns the STRIPPED stanzas, with
the final stanza additionally carrying the appended trailing CRLF:
parse and join are inverse only up to stripping and the trailing line
terminator, independent of the line-ending style inside the
stanzas. -/
theorem C1_roundtrip_amended (S : List Str) (hne : S ≠ [])
    (hall : ∀ s ∈ S, strip s ≠ [] ∧ noDoubleBreak (strip s) = true) :
    parse_stanzas (join_stanzas S) =
      S.dropLast.map strip ++ [strip (S.getLast hne) ++ EOL] :=
  parse_join S hne hall

/-- Witness for the amended C1: two stanzas, one with LF line endings
inside, one carrying surrounding whitespace. -/
theorem C1_roundtrip_witness :
    parse_stanzas (join_stanzas ["a: 1\nb: 2".toList, " c: 3 ".toList]) =
      ["a: 1\nb: 2".toList, "c: 3".toList ++ EOL] := by
  rw [C1_roundtrip_amended ["a: 1\nb: 2".toList, " c: 3 ".toList] (by simp)
    (by decide)]
  decide

/-- Counterexample to C1 as stated: already for the single non-blank
stanza "a", the parsed result of the joined text is the stanza with a
trailing CRLF attached, not the stanza itself. -/
theorem C1_counterexample :
    parse_stanzas (join_stanzas ["a".toList]) ≠ ["a".toList] := by
  rw [parse_join ["a".toList] (by simp) (by decide)]
  decide

/-! ## Lines of the applier output (C7) -/

/-- The base equation of the line scanner. -/
theorem splitlinesAux_nil (acc : List Char) (b : Bool) :
    splitlinesAux [] acc b = if acc.isEmpty then [] else [acc.reverse] := rfl

/-- A CRLF pair at the head closes the current line, counting as one
single break. -/
theorem splitlinesAux_crlf (rest : List Char) (acc : List Char) :
    splitlinesAux ('\r' :: '\n' :: rest) acc false =
      acc.reverse :: splitlinesAux rest [] false := by
  rw [splitlinesAux]
  rw [if_neg (by simp)]
  rw [if_pos (by decide)]
  rw [show (('\r' : Char) == '\r') = true from rfl]
  rw [splitlinesAux]
  rw [if_pos ⟨rfl, rfl⟩]

/-- A non-break head character joins the current line. -/
theorem splitlinesAux_cons (c : Char) (rest acc : List Char) (hc : isLB c = false) :
    splitlinesAux (c :: rest) acc false = splitlinesAux rest (c :: acc) false := by
  rw [splitlinesAux]
  rw [if_neg (by simp)]
  rw [if_neg (by rw [hc]; simp)]

/-- Every line splitlines produces is free of line-break characters
(given a break-free accumulator). -/
theorem splitlinesAux_not_LB (l : List Char) : ∀ (acc : List Char) (b : Bool),
    (∀ c ∈ acc, isLB c = false) →
    ∀ ln ∈ splitlinesAux l acc b, ∀ c ∈ ln, isLB c = false := by
  induction l with
  | nil =>
      intro acc b hacc ln hln c hc
      rw [splitlinesAux_nil] at hln
      split at hln
      · simp at hln
      · rw [List.mem_singleton] at hln
        subst hln
        exact hacc c (List.mem_reverse.mp hc)
  | cons d rest ih =>
      intro acc b hacc ln hln c hc
      rw [splitlinesAux] at hln
      by_cases h1 : b = true ∧ d = '\n'
      · rw [if_pos h1] at hln
        exact ih acc false hacc ln hln c hc
      · rw [if_neg h1] at hln
        by_cases h2 : isLB d = true
        · rw [if_pos h2] at hln
          rcases List.mem_cons.mp hln with rfl | hln2
          · exact hacc c (List.mem_reverse.mp hc)
          · exact ih [] _ (by simp) ln hln2 c hc
        · rw [if_neg h2] at hln
          have hdacc : ∀ e ∈ d :: acc, isLB e = false := by
            intro e he
            rcases List.mem_cons.mp he with rfl | he2
            · exact Bool.eq_false_iff.mpr h2
            · exact hacc e he2
          exact ih (d :: acc) false hdacc ln hln c hc

/-- Every line of a split stanza is break-free. -/
theorem splitlines_not_LB (s : Str) :
    ∀ ln ∈ splitlines s, ∀ c ∈ ln, isLB c = false :=
  splitlinesAux_not_LB s [] false (by simp)

/-- Scanning break-free text moves it into the line accumulator. -/
theorem slScan (x : List Char) (t : List Char) (acc : List Char)
    (hx : ∀ c ∈ x, isLB c = false) :
    splitlinesAux (x ++ t) acc false = splitlinesAux t (x.reverse ++ acc) false := by
  induction x generalizing acc with
  | nil => simp
  | cons c cs ih =>
      have hc := hx c (List.mem_cons_self c cs)
      rw [List.cons_append, splitlinesAux_cons c (cs ++ t) acc hc]
      rw [ih (c :: acc) (fun e he => hx e (List.mem_cons_of_mem c he))]
      simp

/-- Splitting the CRLF-joined lines recovers them, provided each line
is free of break characters and the last line is non-empty. -/
theorem splitlines_joinSep (ls : List Str) (hne : ls ≠ [])
    (hlast : ls.getLast? ≠ some [])
    (hlb : ∀ ln ∈ ls, ∀ c ∈ ln, isLB c = false) :
    splitlines (joinSep EOL ls) = ls := by
  induction ls with
  | nil => exact absurd rfl hne
  | cons x rest ih =>
      cases rest with
      | nil =>
          show splitlinesAux x [] false = [x]
          have hxne : x ≠ [] := by
            intro hcon
            exact hlast (by rw [hcon]; rfl)
          have hcalc : splitlinesAux (x ++ []) [] false =
              splitlinesAux [] (x.reverse ++ []) false :=
            slScan x [] [] (hlb x (List.mem_cons_self x []))
          rw [List.append_nil] at hcalc
          rw [hcalc, splitlinesAux_nil]
          rw [if_neg (by simp [hxne])]
          simp
      | cons y rest2 =>
          have hjoin : joinSep EOL (x :: y :: rest2) =
              x ++ ('\r' :: '\n' :: joinSep EOL (y :: rest2)) := by
            show (x ++ EOL) ++ joinSep EOL (y :: rest2) = _
            simp [EOL]
          show splitlinesAux (joinSep EOL (x :: y :: rest2)) [] false = x :: y :: rest2
          rw [hjoin, slScan x _ [] (hlb x (List.mem_cons_self x _)),
            splitlinesAux_crlf]
          have hrec := ih (by simp) (by rwa [List.getLast?_cons_cons] at hlast)
            (fun ln hln => hlb ln (List.mem_cons_of_mem x hln))
          unfold splitlines at hrec
          rw [hrec]
          simp

/-- Characters of the decimal rendering are digits, never break
characters. -/
theorem natToStr_not_LB (n : Nat) : ∀ c ∈ natToStr n, isLB c = false := by
  induction n using Nat.strong_induction_on with
  | _ n ih =>
      intro c hc
      rw [natToStr] at hc
      have hdigit : ∀ k, k < 10 → isLB (Char.ofNat (48 + k)) = false := by
        intro k hk
        interval_cases k <;> decide
      by_cases h10 : n < 10
      · rw [dif_pos h10] at hc
        rw [List.mem_singleton] at hc
        subst hc
        exact hdigit n h10
      · rw [dif_neg h10] at hc
        rcases List.mem_append.mp hc with hc2 | hc2
        · exact ih (n / 10) (Nat.div_lt_self (by omega) (by omega)) c hc2
        · rw [List.mem_singleton] at hc2
          subst hc2
          exact hdigit (n % 10) (Nat.mod_lt _ (by omega))

/-- Membership in set_field output: an old line or the built line. -/
theorem mem_set_field (lines : List Str) (K v ln : Str)
    (h : ln ∈ set_field lines K v) : ln ∈ lines ∨ ln = K ++ ':' :: ' ' :: v := by
  unfold set_field at h
  cases hg : get_field lines K with
  | none =>
      rw [hg] at h
      rcases List.mem_append.mp h with h2 | h2
      · exact Or.inl h2
      · exact Or.inr (List.mem_singleton.mp h2)
  | some p =>
      rw [hg] at h
      exact List.mem_or_eq_of_mem_set h

/-- Membership in applyFix output: an old line or a built correction
line. -/
theorem mem_applyFix (l : List Str) (K2 : Str) (f : Option Str) (ln : Str)
    (h : ln ∈ applyFix l K2 f) :
    ln ∈ l ∨ ∃ v, f = some v ∧ ln = K2 ++ ':' :: ' ' :: v := by
  cases f with
  | none => exact Or.inl h
  | some v =>
      have he : applyFix l K2 (some v) = if v.isEmpty then l else set_field l K2 v := rfl
      rw [he] at h
      by_cases hv : v.isEmpty = true
      · rw [if_pos hv] at h
        exact Or.inl h
      · rw [if_neg hv] at h
        rcases mem_set_field l K2 v ln h with h2 | h2
        · exact Or.inl h2
        · exact Or.inr ⟨v, rfl, h2⟩

/-- Membership in remove_fields output stays in the input. -/
theorem mem_remove_fields (lines : List Str) (keys : List Str) (ln : Str)
    (h : ln ∈ remove_fields lines keys) : ln ∈ lines := by
  unfold remove_fields at h
  exact List.mem_of_mem_filter h

/-- Lines surviving remove_fields carry no removed field name. -/
theorem remove_fields_name (lines : List Str) (keys : List Str) (ln : Str)
    (h : ln ∈ remove_fields lines keys) :
    ∀ nm, fieldNameOf ln = some nm → nm ∉ keys.map toLowerStr := by
  intro nm hnm
  unfold remove_fields at h
  have hpred := List.of_mem_filter h
  rw [hnm] at hpred
  simp only [Bool.not_eq_false', List.contains_eq_any_beq] at hpred
  intro hmem
  rw [Bool.not_eq_true', List.any_eq_false] at hpred
  exact absurd (by simp : (nm == nm) = true) (by simpa using hpred nm hmem)

/-- An invariant satisfied by every input line and by every line a
correction step could build is satisfied by every output line of the
step. -/
theorem applyFix_lines_inv (P : Str → Prop) (l : List Str) (K2 : Str) (f : Option Str)
    (hl : ∀ ln ∈ l, P ln)
    (hnew : ∀ v, f = some v → P (K2 ++ ':' :: ' ' :: v)) :
    ∀ ln ∈ applyFix l K2 f, P ln := by
  intro ln hln
  rcases mem_applyFix l K2 f ln hln with h | ⟨v, hv, rfl⟩
  · exact hl ln h
  · exact hnew v hv

/-- A built field line over a break-free key and value is break-free. -/
theorem builtLine_not_LB (K2 v : Str) (hK2 : ∀ c ∈ K2, isLB c = false)
    (hv : ∀ c ∈ v, isLB c = false) :
    ∀ c ∈ K2 ++ ':' :: ' ' :: v, isLB c = false := by
  intro c hc
  rcases List.mem_append.mp hc with h | h
  · exact hK2 c h
  · rcases List.mem_cons.mp h with rfl | h2
    · decide
    · rcases List.mem_cons.mp h2 with rfl | h3
      · decide
      · exact hv c h3

/-- The field name of a built line is the lowercased key, whatever the
value. -/
theorem builtLine_name (K2 v : Str) (hK2 : goodKey K2) :
    ∀ nm, fieldNameOf (K2 ++ ':' :: ' ' :: v) = some nm → nm = toLowerStr K2 := by
  intro nm hnm
  rw [fieldNameOf_build K2 (' ' :: v) hK2] at hnm
  exact (Option.some.inj hnm).symm

/-- C7: for every stanza to which a plan is applied (with break-free
hash digests and correction values, as the program always supplies),
the resulting stanza's lines end with the four fresh lines Size,
MD5sum, SHA1, SHA256 in that fixed order, no earlier line carries any
of those field names in any casing, and hence each of the four fields
occurs exactly once — regardless of how many such fields the input
stanza contained. -/
theorem C7_hash_lines (stanza : Str) (p : UpdatePlan)
    (hmd5 : ∀ c ∈ p.md5, isLB c = false)
    (hsha1 : ∀ c ∈ p.sha1, isLB c = false)
    (hsha256 : ∀ c ∈ p.sha256, isLB c = false)
    (hfix : ∀ f ∈ [p.fix_pkg, p.fix_ver, p.fix_arch, p.fix_filename, p.icon_url],
      ∀ v, f = some v → ∀ c ∈ v, isLB c = false) :
    ∃ ys, splitlines (applyPlanStanza stanza p) =
        ys ++ [kSize ++ ':' :: ' ' :: natToStr p.size,
               kMD5sum ++ ':' :: ' ' :: p.md5,
               kSHA1 ++ ':' :: ' ' :: p.sha1,
               kSHA256 ++ ':' :: ' ' :: p.sha256] ∧
      (∀ ln ∈ ys, ∀ nm, fieldNameOf ln = some nm → nm ∉ hashKeys.map toLowerStr) ∧
      ∀ K ∈ hashKeys, List.countP
        (fun ln => fieldNameOf ln == some (toLowerStr K))
        (splitlines (applyPlanStanza stanza p)) = 1 := by
  have h1lb : ∀ ln ∈ remove_fields (splitlines stanza) hashKeys, ∀ c ∈ ln, isLB c = false :=
    fun ln hln => splitlines_not_LB stanza ln (mem_remove_fields _ _ _ hln)
  have h1nm : ∀ ln ∈ remove_fields (splitlines stanza) hashKeys,
      ∀ nm, fieldNameOf ln = some nm → nm ∉ hashKeys.map toLowerStr :=
    fun ln hln => remove_fields_name _ _ _ hln
  have h2lb := applyFix_lines_inv (fun ln => ∀ c ∈ ln, isLB c = false)
    _ kPackage p.fix_pkg h1lb
    (fun v hv => builtLine_not_LB kPackage v (by decide) (hfix p.fix_pkg (by simp) v hv))
  have h2nm := applyFix_lines_inv
    (fun ln => ∀ nm, fieldNameOf ln = some nm → nm ∉ hashKeys.map toLowerStr)
    _ kPackage p.fix_pkg h1nm
    (fun v _ nm hnm => by
      rw [builtLine_name kPackage v ⟨by decide, by decide⟩ nm hnm]
      decide)
  have h3lb := applyFix_lines_inv (fun ln => ∀ c ∈ ln, isLB c = false)
    _ kVersion p.fix_ver h2lb
    (fun v hv => builtLine_not_LB kVersion v (by decide) (hfix p.fix_ver (by simp) v hv))
  have h3nm := applyFix_lines_inv
    (fun ln => ∀ nm, fieldNameOf ln = some nm → nm ∉ hashKeys.map toLowerStr)
    _ kVersion p.fix_ver h2nm
    (fun v _ nm hnm => by
      rw [builtLine_name kVersion v ⟨by decide, by decide⟩ nm hnm]
      decide)
  have h4lb := applyFix_lines_inv (fun ln => ∀ c ∈ ln, isLB c = false)
    _ kArchitecture p.fix_arch h3lb
    (fun v hv => builtLine_not_LB kArchitecture v (by decide) (hfix p.fix_arch (by simp) v hv))
  have h4nm := applyFix_lines_inv
    (fun ln => ∀ nm, fieldNameOf ln = some nm → nm ∉ hashKeys.map toLowerStr)
    _ kArchitecture p.fix_arch h3nm
    (fun v _ nm hnm => by
      rw [builtLine_name kArchitecture v ⟨by decide, by decide⟩ nm hnm]
      decide)
  have h5lb := applyFix_lines_inv (fun ln => ∀ c ∈ ln, isLB c = false)
    _ kFilename p.fix_filename h4lb
    (fun v hv => builtLine_not_LB kFilename v (by decide) (hfix p.fix_filename (by simp) v hv))
  have h5nm := applyFix_lines_inv
    (fun ln => ∀ nm, fieldNameOf ln = some nm → nm ∉ hashKeys.map toLowerStr)
    _ kFilename p.fix_filename h4nm
    (fun v _ nm hnm => by
      rw [builtLine_name kFilename v ⟨by decide, by decide⟩ nm hnm]
      decide)
  have h6lb := applyFix_lines_inv (fun ln => ∀ c ∈ ln, isLB c = false)
    _ kIcon p.icon_url h5lb
    (fun v hv => builtLine_not_LB kIcon v (by decide) (hfix p.icon_url (by simp) v hv))
  have h6nm := applyFix_lines_inv
    (fun ln => ∀ nm, fieldNameOf ln = some nm → nm ∉ hashKeys.map toLowerStr)
    _ kIcon p.icon_url h5nm
    (fun v _ nm hnm => by
      rw [builtLine_name kIcon v ⟨by decide, by decide⟩ nm hnm]
      decide)
  have hfourlb : ∀ ln ∈ [kSize ++ ':' :: ' ' :: natToStr p.size,
      kMD5sum ++ ':' :: ' ' :: p.md5,
      kSHA1 ++ ':' :: ' ' :: p.sha1,
      kSHA256 ++ ':' :: ' ' :: p.sha256], ∀ c ∈ ln, isLB c = false := by
    intro ln hln
    simp only [List.mem_cons, List.not_mem_nil, or_false] at hln
    rcases hln with rfl | rfl | rfl | rfl
    · exact builtLine_not_LB kSize _ (by decide) (natToStr_not_LB p.size)
    · exact builtLine_not_LB kMD5sum _ (by decide) hmd5
    · exact builtLine_not_LB kSHA1 _ (by decide) hsha1
    · exact builtLine_not_LB kSHA256 _ (by decide) hsha256
  have hL := applyPlanLines_eq (splitlines stanza) p
  have hall : ∀ ln ∈ applyPlanLines (splitlines stanza) p, ∀ c ∈ ln, isLB c = false := by
    rw [hL]
    intro ln hln
    rcases List.mem_append.mp hln with h | h
    · exact h6lb ln h
    · exact hfourlb ln h
  have hne : applyPlanLines (splitlines stanza) p ≠ [] := by
    rw [hL]
    simp
  have hlast : (applyPlanLines (splitlines stanza) p).getLast? ≠ some [] := by
    rw [hL]
    rw [show applyFix (applyFix (applyFix (applyFix (applyFix
        (remove_fields (splitlines stanza) hashKeys)
        kPackage p.fix_pkg) kVersion p.fix_ver) kArchitecture p.fix_arch)
        kFilename p.fix_filename) kIcon p.icon_url ++
      [kSize ++ ':' :: ' ' :: natToStr p.size,
       kMD5sum ++ ':' :: ' ' :: p.md5,
       kSHA1 ++ ':' :: ' ' :: p.sha1,
       kSHA256 ++ ':' :: ' ' :: p.sha256] =
      (applyFix (applyFix (applyFix (applyFix (applyFix
        (remove_fields (splitlines stanza) hashKeys)
        kPackage p.fix_pkg) kVersion p.fix_ver) kArchitecture p.fix_arch)
        kFilename p.fix_filename) kIcon p.icon_url ++
      [kSize ++ ':' :: ' ' :: natToStr p.size,
       kMD5sum ++ ':' :: ' ' :: p.md5,
       kSHA1 ++ ':' :: ' ' :: p.sha1]) ++
      [kSHA256 ++ ':' :: ' ' :: p.sha256] by simp]
    rw [List.getLast?_concat]
    intro hcon
    have h := Option.some.inj hcon
    simp [kSHA256] at h
  have hsplit : splitlines (applyPlanStanza stanza p) =
      applyPlanLines (splitlines stanza) p := by
    unfold applyPlanStanza
    exact splitlines_joinSep _ hne hlast hall
  refine ⟨applyFix (applyFix (applyFix (applyFix (applyFix
      (remove_fields (splitlines stanza) hashKeys)
      kPackage p.fix_pkg) kVersion p.fix_ver) kArchitecture p.fix_arch)
      kFilename p.fix_filename) kIcon p.icon_url, ?_, h6nm, ?_⟩
  · rw [hsplit, hL]
  · intro K hK
    rw [hsplit, hL, List.countP_append]
    have hz : List.countP (fun ln => fieldNameOf ln == some (toLowerStr K))
        (applyFix (applyFix (applyFix (applyFix (applyFix
          (remove_fields (splitlines stanza) hashKeys)
          kPackage p.fix_pkg) kVersion p.fix_ver) kArchitecture p.fix_arch)
          kFilename p.fix_filename) kIcon p.icon_url) = 0 := by
      rw [List.countP_eq_zero]
      intro ln hln hcon
      rw [beq_iff_eq] at hcon
      exact h6nm ln hln _ hcon (List.mem_map_of_mem toLowerStr hK)
    rw [hz, Nat.zero_add]
    have e1 : fieldNameOf (kSize ++ ':' :: ' ' :: natToStr p.size) =
        some (toLowerStr kSize) :=
      fieldNameOf_build kSize _ ⟨by decide, by decide⟩
    have e2 : fieldNameOf (kMD5sum ++ ':' :: ' ' :: p.md5) = some (toLowerStr kMD5sum) :=
      fieldNameOf_build kMD5sum _ ⟨by decide, by decide⟩
    have e3 : fieldNameOf (kSHA1 ++ ':' :: ' ' :: p.sha1) = some (toLowerStr kSHA1) :=
      fieldNameOf_build kSHA1 _ ⟨by decide, by decide⟩
    have e4 : fieldNameOf (kSHA256 ++ ':' :: ' ' :: p.sha256) = some (toLowerStr kSHA256) :=
      fieldNameOf_build kSHA256 _ ⟨by decide, by decide⟩
    simp only [List.countP_cons, List.countP_nil, e1, e2, e3, e4]
    have hK4 : K = kSize ∨ K = kMD5sum ∨ K = kSHA1 ∨ K = kSHA256 := by
      simpa [hashKeys] using hK
    rcases hK4 with rfl | rfl | rfl | rfl <;> decide

/-- Witness: C7 at a concrete stanza carrying a stray SHA256 line and
a concrete plan. -/
theorem C7_hash_lines_witness :
    ∃ ys, splitlines (applyPlanStanza "Package: a\r\nSHA256: old\r\nName: x".toList
        ⟨0, "a.deb".toList, 5, "aa".toList, "bb".toList, "cc".toList,
         none, none, none, none, none⟩) =
        ys ++ [kSize ++ ':' :: ' ' :: natToStr 5,
               kMD5sum ++ ':' :: ' ' :: "aa".toList,
               kSHA1 ++ ':' :: ' ' :: "bb".toList,
               kSHA256 ++ ':' :: ' ' :: "cc".toList] ∧
      (∀ ln ∈ ys, ∀ nm, fieldNameOf ln = some nm → nm ∉ hashKeys.map toLowerStr) ∧
      ∀ K ∈ hashKeys, List.countP
        (fun ln => fieldNameOf ln == some (toLowerStr K))
        (splitlines (applyPlanStanza "Package: a\r\nSHA256: old\r\nName: x".toList
          ⟨0, "a.deb".toList, 5, "aa".toList, "bb".toList, "cc".toList,
           none, none, none, none, none⟩)) = 1 :=
  C7_hash_lines "Package: a\r\nSHA256: old\r\nName: x".toList
    ⟨0, "a.deb".toList, 5, "aa".toList, "bb".toList, "cc".toList,
     none, none, none, none, none⟩
    (by decide) (by decide) (by decide) (by simp)

end UpdatePackages
